import Mathlib

/-!
Verification of the inspyred evolutionary-computation library core.

The definitions below are shallow embeddings of the Python sources:
  * `inspyred/ec/emo.py`     — the `Pareto` fitness value and its dominance order
  * `inspyred/ec/ec.py`      — `Individual` and the `evolve` engine loop counters
  * `inspyred/ec/replacers.py` — `nsga_replacement` (NSGA-II survivor selection)
  * `inspyred/ec/archivers.py` — `adaptive_grid_archiver` and its grid helpers

Numeric fitness values are modelled as rationals; Python's `float('inf')`
crowding distances are modelled as `WithTop ℚ`; fallible Python code
(exceptions, list index errors) is modelled with `Except`/`Option`.
-/

namespace Inspyred

/-! ## Pareto fitness values (`inspyred/ec/emo.py`)

A `Pareto` holds the list of objective values together with a per-objective
`maximize` flag list (the constructor expands a single Boolean to a list of
the same length as `values`). -/

structure Pareto where
  values : List ℚ
  maximize : List Bool
deriving Repr, DecidableEq

/-- One iteration of the comparison loop in `Pareto.__lt__`
(`emo.py` lines 98–108).  The state is the pair
(`not_worse`, `strictly_better`); the element is `((x, y), m)` from
`zip(self.values, other.values, self.maximize)`. -/
def paretoStep (st : Bool × Bool) (t : (ℚ × ℚ) × Bool) : Bool × Bool :=
  let x := t.1.1
  let y := t.1.2
  let m := t.2
  if m then
    if x > y then (false, st.2)
    else if y > x then (st.1, true)
    else st
  else
    if x < y then (false, st.2)
    else if y < x then (st.1, true)
    else st

/-- The loop body of `Pareto.__lt__` without the length guard:
fold `paretoStep` over the zipped objective lists starting from
`not_worse = True`, `strictly_better = False`, and return
`not_worse and strictly_better`. -/
def paretoLtB (xs ys : List ℚ) (ms : List Bool) : Bool :=
  let r := ((xs.zip ys).zip ms).foldl paretoStep (true, false)
  r.1 && r.2

/-- `Pareto.__lt__` (`emo.py` lines 92–109): raises `NotImplementedError`
(modelled as `.error ()`) when the two value lists have different lengths,
otherwise runs the dominance loop. -/
def paretoLt (a b : Pareto) : Except Unit Bool :=
  if a.values.length ≠ b.values.length then .error ()
  else .ok (paretoLtB a.values b.values a.maximize)

/-- "x is worse than y" at one objective with polarity m, exactly the
first branch condition of the loop. -/
def worseB (t : (ℚ × ℚ) × Bool) : Bool :=
  if t.2 then decide (t.1.1 > t.1.2) else decide (t.1.1 < t.1.2)

/-- "y is strictly better than x" at one objective with polarity m, exactly
the `elif` branch condition of the loop. -/
def betterB (t : (ℚ × ℚ) × Bool) : Bool :=
  if t.2 then decide (t.1.2 > t.1.1) else decide (t.1.2 < t.1.1)

lemma paretoStep_eq (st : Bool × Bool) (t : (ℚ × ℚ) × Bool) :
    paretoStep st t = (st.1 && !(worseB t), st.2 || betterB t) := by
  obtain ⟨⟨x, y⟩, m⟩ := t
  cases m <;> simp only [paretoStep, worseB, betterB]
  · by_cases hxy : x < y
    · simp [hxy, not_lt_of_gt hxy]
    · by_cases hyx : y < x
      · simp [hxy, hyx]
      · simp [hxy, hyx]
  · by_cases hxy : x > y
    · simp [hxy, not_lt_of_gt hxy]
    · by_cases hyx : y > x
      · simp [hxy, hyx]
      · simp [hxy, hyx]

lemma foldl_paretoStep (l : List ((ℚ × ℚ) × Bool)) (st : Bool × Bool) :
    l.foldl paretoStep st = (st.1 && l.all (fun t => !(worseB t)), st.2 || l.any betterB) := by
  induction l generalizing st with
  | nil => simp
  | cons hd tl ih =>
      rw [List.foldl_cons, paretoStep_eq, ih]
      simp [Bool.and_assoc, Bool.or_assoc]

/-- Characterization of the dominance loop: `paretoLtB xs ys ms = true` iff
no zipped objective is worse and some zipped objective is strictly better. -/
lemma paretoLtB_iff (xs ys : List ℚ) (ms : List Bool) :
    paretoLtB xs ys ms = true ↔
      (∀ t ∈ (xs.zip ys).zip ms, ¬ worseB t = true) ∧
      (∃ t ∈ (xs.zip ys).zip ms, betterB t = true) := by
  unfold paretoLtB
  rw [foldl_paretoStep]
  simp [List.all_eq_true, List.any_eq_true]

/-- "`y` is at least as good as `x`" under polarity `m`
(maximize: `x ≤ y`; minimize: `y ≤ x`). -/
def polLe (m : Bool) (x y : ℚ) : Prop := if m then x ≤ y else y ≤ x

/-- "`y` is strictly better than `x`" under polarity `m`
(maximize: `x < y`; minimize: `y < x`). -/
def polLt (m : Bool) (x y : ℚ) : Prop := if m then x < y else y < x

instance (m : Bool) (x y : ℚ) : Decidable (polLe m x y) := by
  unfold polLe; infer_instance

instance (m : Bool) (x y : ℚ) : Decidable (polLt m x y) := by
  unfold polLt; infer_instance

lemma polLe_trans {m : Bool} {x y z : ℚ} (h1 : polLe m x y) (h2 : polLe m y z) :
    polLe m x z := by
  cases m <;> simp [polLe] at h1 h2 ⊢
  · exact le_trans h2 h1
  · exact le_trans h1 h2

lemma polLt_of_polLt_of_polLe {m : Bool} {x y z : ℚ}
    (h1 : polLt m x y) (h2 : polLe m y z) : polLt m x z := by
  cases m <;> simp [polLt, polLe] at h1 h2 ⊢
  · exact lt_of_le_of_lt h2 h1
  · exact lt_of_lt_of_le h1 h2

lemma not_polLt_of_polLe {m : Bool} {x y : ℚ} (h : polLe m x y) :
    ¬ polLt m y x := by
  cases m <;> simp [polLe, polLt] at h ⊢ <;> exact h

lemma worseB_eq_false_iff (x y : ℚ) (m : Bool) :
    (¬ worseB ((x, y), m) = true) ↔ polLe m x y := by
  cases m <;> simp [worseB, polLe, not_lt]

lemma betterB_iff (x y : ℚ) (m : Bool) :
    (betterB ((x, y), m) = true) ↔ polLt m x y := by
  cases m <;> simp [betterB, polLt]

/-- Pointwise (per-objective) characterization of the dominance loop when the
three lists have matching lengths. -/
lemma paretoLtB_pointwise (xs ys : List ℚ) (ms : List Bool)
    (h1 : ys.length = xs.length) (h2 : ms.length = xs.length) :
    paretoLtB xs ys ms = true ↔
      ((∀ i < xs.length, polLe (ms.getD i true) (xs.getD i 0) (ys.getD i 0))
        ∧ ∃ i < xs.length, polLt (ms.getD i true) (xs.getD i 0) (ys.getD i 0)) := by
  have hlen : ((xs.zip ys).zip ms).length = xs.length := by
    simp [h1, h2]
  rw [paretoLtB_iff, List.forall_mem_iff_getElem, List.exists_mem_iff_getElem]
  constructor
  · rintro ⟨hall, i, hi, hb⟩
    refine ⟨fun j hj => ?_, i, by omega, ?_⟩
    · have hj' : j < ((xs.zip ys).zip ms).length := by omega
      have := hall j hj'
      rw [List.getElem_zip, List.getElem_zip] at this
      rw [worseB_eq_false_iff] at this
      simpa [List.getD_eq_getElem, hj, h1 ▸ hj, h2 ▸ hj] using this
    · have hi' : i < xs.length := by omega
      rw [List.getElem_zip, List.getElem_zip] at hb
      rw [betterB_iff] at hb
      simpa [List.getD_eq_getElem, hi', h1 ▸ hi', h2 ▸ hi'] using hb
  · rintro ⟨hall, i, hi, hb⟩
    refine ⟨fun j hj => ?_, i, by omega, ?_⟩
    · have hj' : j < xs.length := by omega
      have := hall j hj'
      rw [List.getElem_zip, List.getElem_zip, worseB_eq_false_iff]
      simpa [List.getD_eq_getElem, hj', h1 ▸ hj', h2 ▸ hj'] using this
    · rw [List.getElem_zip, List.getElem_zip, betterB_iff]
      simpa [List.getD_eq_getElem, hi, h1 ▸ hi, h2 ▸ hi] using hb

lemma paretoLtB_self (xs : List ℚ) (ms : List Bool) :
    paretoLtB xs xs ms = false := by
  unfold paretoLtB
  rw [foldl_paretoStep]
  have hany : ((xs.zip xs).zip ms).any betterB = false := by
    rw [List.any_eq_false]
    rintro ⟨⟨x, y⟩, m⟩ ht
    have hxy : (x, y) ∈ xs.zip xs ∧ m ∈ ms := List.of_mem_zip ht
    have hsame : xs.zip xs = xs.map (fun a => (a, a)) := by
      rw [List.zip, List.zipWith_same]
    rw [hsame, List.mem_map] at hxy
    obtain ⟨⟨a, ha, heq⟩, -⟩ := hxy
    have hx : x = a := (congrArg Prod.fst heq).symm
    have hy : y = a := (congrArg Prod.snd heq).symm
    subst hx; subst hy
    cases m <;> simp [betterB]
  simp [hany]

lemma paretoLtB_asymm (xs ys : List ℚ) (ms : List Bool)
    (h1 : ys.length = xs.length) (h2 : ms.length = xs.length)
    (hd : paretoLtB xs ys ms = true) : ¬ paretoLtB ys xs ms = true := by
  intro hd'
  obtain ⟨hall, -⟩ := (paretoLtB_pointwise xs ys ms h1 h2).mp hd
  obtain ⟨-, i, hi, hlt⟩ :=
    (paretoLtB_pointwise ys xs ms (by omega) (by omega)).mp hd'
  exact not_polLt_of_polLe (hall i (by omega)) hlt

lemma paretoLtB_trans (xs ys zs : List ℚ) (ms : List Bool)
    (h1 : ys.length = xs.length) (h2 : zs.length = xs.length)
    (h3 : ms.length = xs.length)
    (hab : paretoLtB xs ys ms = true) (hbc : paretoLtB ys zs ms = true) :
    paretoLtB xs zs ms = true := by
  obtain ⟨hall1, i, hi, hlt1⟩ := (paretoLtB_pointwise xs ys ms h1 h3).mp hab
  obtain ⟨hall2, -⟩ :=
    (paretoLtB_pointwise ys zs ms (by omega) (by omega)).mp hbc
  refine (paretoLtB_pointwise xs zs ms h2 h3).mpr ⟨fun j hj => ?_, i, hi, ?_⟩
  · exact polLe_trans (hall1 j hj) (hall2 j (by omega))
  · exact polLt_of_polLt_of_polLe hlt1 (hall2 i (by omega))

/-- C4: For Pareto values `A` and `B` with the same number of objectives and
identical per-objective maximize polarity, `A < B` holds iff every objective
of `B` is at least as good as `A`'s (respecting polarity) and at least one
objective of `B` is strictly better; moreover the dominance relation is
irreflexive (`A < A` is `False`) and asymmetric (`A < B` excludes `B < A`). -/
theorem pareto_dominance_characterization (A B : Pareto)
    (hlen : B.values.length = A.values.length)
    (hpol : B.maximize = A.maximize)
    (hm : A.maximize.length = A.values.length) :
    (paretoLt A B = .ok true ↔
      ((∀ i < A.values.length,
          polLe (A.maximize.getD i true) (A.values.getD i 0) (B.values.getD i 0))
        ∧ ∃ i < A.values.length,
          polLt (A.maximize.getD i true) (A.values.getD i 0) (B.values.getD i 0)))
    ∧ paretoLt A A = .ok false
    ∧ (paretoLt A B = .ok true → ¬ paretoLt B A = .ok true) := by
  have hAB : paretoLt A B = .ok (paretoLtB A.values B.values A.maximize) := by
    simp [paretoLt, hlen]
  have hBA : paretoLt B A = .ok (paretoLtB B.values A.values B.maximize) := by
    simp [paretoLt, hlen]
  refine ⟨?_, ?_, ?_⟩
  · rw [hAB]
    simp only [Except.ok.injEq]
    exact paretoLtB_pointwise A.values B.values A.maximize hlen hm
  · simp [paretoLt, paretoLtB_self]
  · intro h1 h2
    rw [hAB] at h1
    rw [hBA, hpol] at h2
    simp only [Except.ok.injEq] at h1 h2
    exact paretoLtB_asymm A.values B.values A.maximize hlen hm h1 h2

/-- Witness for C4 at a concrete pair of two-objective Pareto values. -/
theorem pareto_dominance_characterization_witness :
    paretoLt ⟨[0, 1], [true, true]⟩ ⟨[1, 1], [true, true]⟩ = .ok true :=
  ((pareto_dominance_characterization ⟨[0, 1], [true, true]⟩ ⟨[1, 1], [true, true]⟩
      rfl rfl rfl).1).mpr (by decide)

/-! ## Individuals with scalar fitness (`inspyred/ec/ec.py`, class `Individual`)

The candidate is opaque to the engine; it is modelled by a natural-number id.
The `birthdate` field is omitted: it takes no part in comparison or equality. -/

structure Individual where
  candidate : ℕ
  fitness : Option ℚ
  maximize : Bool
deriving Repr, DecidableEq

/-- `Individual.__lt__` (`ec.py` 232–239): compares fitness values respecting
`maximize`, and raises (modelled as `.error`) when either fitness is unset. -/
def indLt (a b : Individual) : Except String Bool :=
  match a.fitness, b.fitness with
  | some fa, some fb =>
      .ok (if a.maximize then decide (fa < fb) else decide (fa > fb))
  | _, _ => .error "fitness cannot be None when comparing Individuals"

/-- `Individual.__le__` (`ec.py` 241–242): `self < other or not other < self`
with Python's short-circuiting `or`. -/
def indLe (a b : Individual) : Except String Bool := do
  let l ← indLt a b
  if l then pure true
  else do
    let r ← indLt b a
    pure (!r)

/-- `Individual.__gt__` (`ec.py` 244–248): `other < self` after its own
unset-fitness guard. -/
def indGt (a b : Individual) : Except String Bool :=
  match a.fitness, b.fitness with
  | some _, some _ => indLt b a
  | _, _ => .error "fitness cannot be None when comparing Individuals"

/-- `Individual.__ge__` (`ec.py` 250–251): `other < self or not self < other`. -/
def indGe (a b : Individual) : Except String Bool := do
  let l ← indLt b a
  if l then pure true
  else do
    let r ← indLt a b
    pure (!r)

/-- Rebuild an individual with a different `maximize` flag (all other
attributes unchanged). -/
def setMaximize (i : Individual) (m : Bool) : Individual := { i with maximize := m }

lemma except_bind_error {ε α β : Type} (s : ε) (f : α → Except ε β) :
    (Except.error s >>= f) = Except.error s := rfl

lemma except_bind_ok {ε α β : Type} (x : α) (f : α → Except ε β) :
    (Except.ok x >>= f : Except ε β) = f x := rfl

lemma except_pure {ε α : Type} (x : α) : (pure x : Except ε α) = Except.ok x := rfl

/-- C6: comparing two individuals when either fitness is unset raises an
error for each of the four comparison operators, rather than returning any
ordering result. -/
theorem individual_compare_unset_fitness_raises (a b : Individual)
    (h : a.fitness = none ∨ b.fitness = none) :
    indLt a b = .error "fitness cannot be None when comparing Individuals"
    ∧ indLe a b = .error "fitness cannot be None when comparing Individuals"
    ∧ indGt a b = .error "fitness cannot be None when comparing Individuals"
    ∧ indGe a b = .error "fitness cannot be None when comparing Individuals" := by
  rcases ha : a.fitness with _ | fa <;> rcases hb : b.fitness with _ | fb <;>
    simp_all [indLt, indLe, indGt, indGe, except_bind_error]

/-- Witness for C6: comparing a fitness-less individual raises. -/
theorem individual_compare_unset_fitness_raises_witness :
    indLt ⟨0, none, true⟩ ⟨1, some 1, true⟩
      = .error "fitness cannot be None when comparing Individuals" :=
  (individual_compare_unset_fitness_raises ⟨0, none, true⟩ ⟨1, some 1, true⟩
    (Or.inl rfl)).1

/-- Counterexample to C5 as stated: for two individuals with equal assigned
fitness values, `<` returns `False` both with `maximize = True` and with
`maximize = False`, so flipping `maximize` does not invert this comparison
result. -/
theorem individual_flip_maximize_counterexample :
    indLt ⟨0, some 0, true⟩ ⟨1, some 0, true⟩ = .ok false
    ∧ indLt ⟨0, some 0, false⟩ ⟨1, some 0, false⟩ = .ok false
    ∧ ¬ ((false : Bool) = !false) := by
  refine ⟨?_, ?_, by decide⟩ <;> simp [indLt]

/-- C5 (amended): for individuals with assigned scalar fitness values and
`maximize = True` on both, `a < b` holds iff `a.fitness < b.fitness`
numerically (and similarly for `<=`, `>`, `>=`); and when the two fitness
values are distinct, flipping `maximize` to `False` on both individuals
inverts the result of each of the four comparison operators. -/
theorem individual_scalar_comparison (a b : Individual) (fa fb : ℚ)
    (ha : a.fitness = some fa) (hb : b.fitness = some fb)
    (hma : a.maximize = true) (hmb : b.maximize = true) :
    (indLt a b = .ok (decide (fa < fb))
      ∧ indLe a b = .ok (decide (fa ≤ fb))
      ∧ indGt a b = .ok (decide (fb < fa))
      ∧ indGe a b = .ok (decide (fb ≤ fa)))
    ∧ (fa ≠ fb →
        indLt (setMaximize a false) (setMaximize b false) = .ok (!decide (fa < fb))
        ∧ indLe (setMaximize a false) (setMaximize b false) = .ok (!decide (fa ≤ fb))
        ∧ indGt (setMaximize a false) (setMaximize b false) = .ok (!decide (fb < fa))
        ∧ indGe (setMaximize a false) (setMaximize b false) = .ok (!decide (fb ≤ fa))) := by
  rcases lt_trichotomy fa fb with h | h | h
  · have h1 : ¬ fb < fa := not_lt_of_gt h
    have h2 : fa ≤ fb := le_of_lt h
    have h3 : ¬ fb ≤ fa := not_le_of_gt h
    refine ⟨?_, fun hne => ?_⟩ <;>
      simp [indLt, indLe, indGt, indGe, setMaximize, ha, hb, hma, hmb,
        except_bind_ok, except_pure, h, h1, h2, h3]
  · subst h
    refine ⟨?_, fun hne => absurd rfl hne⟩
    simp [indLt, indLe, indGt, indGe, setMaximize, ha, hb, hma, hmb,
      except_bind_ok, except_pure]
  · have h1 : ¬ fa < fb := not_lt_of_gt h
    have h2 : fb ≤ fa := le_of_lt h
    have h3 : ¬ fa ≤ fb := not_le_of_gt h
    refine ⟨?_, fun hne => ?_⟩ <;>
      simp [indLt, indLe, indGt, indGe, setMaximize, ha, hb, hma, hmb,
        except_bind_ok, except_pure, h, h1, h2, h3]

/-- Witness for C5 (amended) at fitness values 1 and 2. -/
theorem individual_scalar_comparison_witness :
    indLt (setMaximize ⟨0, some 1, true⟩ false) (setMaximize ⟨1, some 2, true⟩ false)
      = .ok false := by
  have h := ((individual_scalar_comparison ⟨0, some 1, true⟩ ⟨1, some 2, true⟩ 1 2
      rfl rfl rfl rfl).2 (by norm_num)).1
  simpa using h

/-! ## Candidate assignment and the fitness-reset invariant (C10) -/

/-- `Individual.candidate` setter (`ec.py` 221–224): stores the new candidate
and resets `fitness` to None. -/
def setCandidate (i : Individual) (c : ℕ) : Individual :=
  { i with candidate := c, fitness := none }

/-- Direct assignment to the `fitness` attribute (as done by `evolve` after
evaluation). -/
def setFitness (i : Individual) (f : Option ℚ) : Individual := { i with fitness := f }

/-- The two attribute assignments the engine performs on an `Individual`. -/
inductive IndOp where
  | assignCandidate (c : ℕ)
  | assignFitness (f : Option ℚ)
deriving Repr, DecidableEq

def applyOp (i : Individual) (op : IndOp) : Individual :=
  match op with
  | .assignCandidate c => setCandidate i c
  | .assignFitness f => setFitness i f

def applyOps (i : Individual) (ops : List IndOp) : Individual := ops.foldl applyOp i

lemma applyOps_append (i : Individual) (l1 l2 : List IndOp) :
    applyOps i (l1 ++ l2) = applyOps (applyOps i l1) l2 := by
  unfold applyOps
  exact List.foldl_append ..

lemma fitness_none_preserved (post : List IndOp) (j : Individual)
    (hpost : ∀ op ∈ post, ∀ f, op ≠ IndOp.assignFitness f)
    (hjf : j.fitness = none) : (applyOps j post).fitness = none := by
  induction post generalizing j with
  | nil => exact hjf
  | cons op rest ih =>
      cases op with
      | assignCandidate c' =>
          rw [show applyOps j (IndOp.assignCandidate c' :: rest)
              = applyOps (setCandidate j c') rest from rfl]
          apply ih
          · intro o ho f
            exact hpost o (by simp [ho]) f
          · rfl
      | assignFitness f => exact absurd rfl (hpost _ (by simp) f)

/-- C10: any assignment to `candidate` resets `fitness` to unset; hence after
a candidate assignment, `fitness` stays unset until a fitness assignment is
performed — a candidate change never leaves a stale fitness attached. -/
theorem candidate_assignment_resets_fitness (i : Individual) (c : ℕ)
    (pre post : List IndOp)
    (hpost : ∀ op ∈ post, ∀ f, op ≠ IndOp.assignFitness f) :
    (setCandidate i c).fitness = none
    ∧ (applyOps i (pre ++ IndOp.assignCandidate c :: post)).fitness = none := by
  refine ⟨rfl, ?_⟩
  rw [show IndOp.assignCandidate c :: post = [IndOp.assignCandidate c] ++ post from rfl,
    ← List.append_assoc, applyOps_append]
  apply fitness_none_preserved post _ hpost
  rw [applyOps_append]
  rfl

/-- Witness for C10: a concrete operation sequence ending in a candidate
assignment followed by another candidate assignment leaves fitness unset. -/
theorem candidate_assignment_resets_fitness_witness :
    (applyOps ⟨0, some 3, true⟩
        ([IndOp.assignFitness (some 7)] ++ IndOp.assignCandidate 5 ::
          [IndOp.assignCandidate 9])).fitness = none :=
  (candidate_assignment_resets_fitness ⟨0, some 3, true⟩ 5
    [IndOp.assignFitness (some 7)] [IndOp.assignCandidate 9]
    (by intro op hop f; simp at hop; simp [hop])).2

/-! ## The `evolve` engine: initialization and evaluation counters
(`EvolutionaryComputation.evolve`, `ec.py` 428–518)

Candidates are opaque; the generator is modelled as a stream `gen : ℕ → ℕ`
giving the result of its successive calls, and each evaluator call is
modelled by the fitness list it returned (`none` = absent fitness). -/

/-- Number of generator calls during initialization (`ec.py` 431):
`num_generated = max(pop_size - len(seeds), 0)`. -/
def numGenerated (popSize : ℤ) (numSeeds : ℕ) : ℤ := max (popSize - numSeeds) 0

/-- The initial candidate list (`ec.py` 430–437): the seeds verbatim, followed
by the results of exactly `numGenerated` generator calls. -/
def initialCS (seeds : List ℕ) (gen : ℕ → ℕ) (popSize : ℤ) : List ℕ :=
  seeds ++ (List.range (numGenerated popSize seeds.length).toNat).map gen

/-- Zip candidates with the evaluator-returned fitness list and build
individuals, dropping any candidate whose returned fitness is absent
(`ec.py` 441–447 and 488–494). -/
def buildIndividuals (cs : List ℕ) (fits : List (Option ℚ)) (maximize : Bool) :
    List Individual :=
  (cs.zip fits).filterMap (fun p => p.2.map (fun f => ⟨p.1, some f, maximize⟩))

/-- The engine state owned by `evolve`: population and the two run counters. -/
structure EngineState where
  population : List Individual
  numEvaluations : ℕ
  numGenerations : ℕ
deriving Repr, DecidableEq

/-- State after the initialization phase (`ec.py` 441–451): population built
from the initial batch, `num_evaluations = len(initial_fit)`,
`num_generations = 0`. -/
def initState (cs : List ℕ) (fits : List (Option ℚ)) (maximize : Bool) : EngineState :=
  { population := buildIndividuals cs fits maximize
    numEvaluations := fits.length
    numGenerations := 0 }

/-- One iteration of the generation loop, restricted to the state it mutates
(`ec.py` 486–513): offspring are built from the evaluator's returned fitness
list (absent ones dropped), `num_evaluations` grows by `len(offspring_fit)`,
the replacer alone determines the new population, and `num_generations`
grows by one. -/
def generationStep (replacer : List Individual → List Individual → List Individual)
    (offspringCS : List ℕ) (offspringFit : List (Option ℚ)) (maximize : Bool)
    (st : EngineState) : EngineState :=
  { population := replacer st.population (buildIndividuals offspringCS offspringFit maximize)
    numEvaluations := st.numEvaluations + offspringFit.length
    numGenerations := st.numGenerations + 1 }

lemma buildIndividuals_length (cs : List ℕ) (fits : List (Option ℚ)) (m : Bool)
    (h : cs.length = fits.length) :
    (buildIndividuals cs fits m).length = (fits.filter Option.isSome).length := by
  induction cs generalizing fits with
  | nil =>
      cases fits with
      | nil => rfl
      | cons f fs => simp at h
  | cons c cs ih =>
      cases fits with
      | nil => simp at h
      | cons f fs =>
          cases f with
          | none =>
              simpa [buildIndividuals, List.filter] using ih fs (by simpa using h)
          | some v =>
              simpa [buildIndividuals, List.filter] using ih fs (by simpa using h)

/-- C7: with a positive `pop_size` and any seed list, initialization performs
exactly `max(pop_size - len(seeds), 0)` generator calls after keeping the
seeds verbatim in front, submits `max(pop_size, len(seeds))` candidates to
the evaluator, and — when the evaluator returns a present fitness for every
candidate — produces an initial population of size
`max(pop_size, len(seeds))`, which exceeds `pop_size` whenever
`len(seeds) > pop_size`. -/
theorem evolve_initial_population_size (seeds : List ℕ) (gen : ℕ → ℕ)
    (popSize : ℤ) (_hpos : 1 ≤ popSize) (fits : List (Option ℚ)) (m : Bool)
    (hlen : fits.length = (initialCS seeds gen popSize).length)
    (hsome : ∀ f ∈ fits, f.isSome) :
    ((initialCS seeds gen popSize).length : ℤ)
        = seeds.length + numGenerated popSize seeds.length
    ∧ ((initialCS seeds gen popSize).length : ℤ) = max popSize seeds.length
    ∧ ((initState (initialCS seeds gen popSize) fits m).population.length : ℤ)
        = max popSize seeds.length
    ∧ (popSize < seeds.length →
        (popSize : ℤ) < (initState (initialCS seeds gen popSize) fits m).population.length) := by
  have hnn : (0 : ℤ) ≤ numGenerated popSize seeds.length := le_max_right _ _
  have ht : ((numGenerated popSize seeds.length).toNat : ℤ)
      = numGenerated popSize seeds.length := Int.toNat_of_nonneg hnn
  have hcs : ((initialCS seeds gen popSize).length : ℤ)
      = seeds.length + numGenerated popSize seeds.length := by
    unfold initialCS
    simp only [List.length_append, List.length_map, List.length_range]
    rw [Nat.cast_add, ht]
  have hmax : ((initialCS seeds gen popSize).length : ℤ) = max popSize seeds.length := by
    rw [hcs]
    unfold numGenerated
    rcases le_total popSize ((seeds.length : ℕ) : ℤ) with h | h
    · rw [max_eq_right (sub_nonpos.mpr h), max_eq_right h, add_zero]
    · rw [max_eq_left (sub_nonneg.mpr h), max_eq_left h]
      ring
  have hfilter : fits.filter Option.isSome = fits := by
    apply List.filter_eq_self.mpr
    intro f hf
    simpa using hsome f hf
  have hpop : (initState (initialCS seeds gen popSize) fits m).population.length
      = fits.length := by
    unfold initState
    simp only
    rw [buildIndividuals_length _ _ _ hlen.symm, hfilter]
  refine ⟨hcs, hmax, ?_, ?_⟩
  · rw [hpop, hlen, hmax]
  · intro hexceed
    rw [hpop, hlen, hmax]
    exact lt_max_iff.mpr (Or.inr hexceed)

/-- Witness for C7: two seeds with `pop_size = 1`; no generator calls are
made and the initial population has size 2 > 1. -/
theorem evolve_initial_population_size_witness :
    ((1 : ℤ) ≤ 1)
    ∧ ((initState (initialCS [5, 6] (fun n => n) 1) [some 1, some 2] true).population.length : ℤ)
        = max 1 ([5, 6] : List ℕ).length := by
  refine ⟨le_refl 1, ?_⟩
  exact (evolve_initial_population_size [5, 6] (fun n => n) 1 (le_refl 1)
    [some 1, some 2] true (by decide) (by decide)).2.2.1

/-- C8: at every evaluation boundary `num_evaluations` grows by exactly the
length of the fitness list the evaluator returned — `len(initial_fit)` after
the initial batch and `len(offspring_fit)` per generation — not by the
number of individuals kept (the kept count is the number of present
fitness entries). -/
theorem evolve_evaluation_count (cs ocs : List ℕ) (fits ofits : List (Option ℚ))
    (m : Bool) (replacer : List Individual → List Individual → List Individual)
    (st : EngineState) (hlen : ocs.length = ofits.length) :
    (initState cs fits m).numEvaluations = fits.length
    ∧ (generationStep replacer ocs ofits m st).numEvaluations
        = st.numEvaluations + ofits.length
    ∧ (buildIndividuals ocs ofits m).length = (ofits.filter Option.isSome).length := by
  exact ⟨rfl, rfl, buildIndividuals_length ocs ofits m hlen⟩

/-- Witness for C8: a generation whose evaluator returns two fitness entries,
one of them absent; the counter grows by 2 while only one offspring is kept. -/
theorem evolve_evaluation_count_witness :
    (generationStep (fun _ o => o) [0, 1] [some 1, none] true
        ⟨[], 3, 0⟩).numEvaluations = 3 + ([some (1 : ℚ), none] : List (Option ℚ)).length
    ∧ (buildIndividuals [0, 1] [some 1, none] true).length
        = (([some (1 : ℚ), none] : List (Option ℚ)).filter Option.isSome).length :=
  ⟨(evolve_evaluation_count [] [0, 1] [] [some 1, none] true (fun _ o => o)
      ⟨[], 3, 0⟩ rfl).2.1,
   (evolve_evaluation_count [] [0, 1] [] [some 1, none] true (fun _ o => o)
      ⟨[], 3, 0⟩ rfl).2.2⟩

/-! ## NSGA-II replacement (`inspyred/ec/replacers.py`, `nsga_replacement`)

Individuals here carry Pareto-valued fitness.  The theorems assume the
well-formedness conditions under which `Pareto.__lt__` cannot raise (every
individual has the same objective count); `nindLt` is `Individual.__lt__`
with those fitness comparisons inlined. -/

structure NInd where
  candidate : ℕ
  pvalues : List ℚ
  pmax : List Bool
  maximize : Bool
deriving Repr, DecidableEq

def nindDefault : NInd := ⟨0, [], [], true⟩

/-- `Individual.__eq__` (`ec.py` 253–255) with Pareto fitness: compares the
candidate, the fitness (`Pareto.__eq__`, `emo.py` 120–121, compares only the
`values`, not the polarity list) and the `maximize` flag. -/
def nindEq (a b : NInd) : Bool :=
  decide (a.candidate = b.candidate) && decide (a.pvalues = b.pvalues)
    && decide (a.maximize = b.maximize)

/-- Python's `x in survivors` membership test (`Individual.__eq__` per item). -/
def nindMem (x : NInd) (l : List NInd) : Bool := l.any (fun y => nindEq y x)

/-- `Individual.__lt__` with Pareto fitness: with `maximize` it is
`self.fitness < other.fitness`, otherwise `self.fitness > other.fitness`
(that is, `Pareto.__lt__` applied to the operands swapped, which then uses
the right operand's polarity list). -/
def nindLt (a b : NInd) : Bool :=
  if a.maximize then paretoLtB a.pvalues b.pvalues a.pmax
  else paretoLtB b.pvalues a.pvalues b.pmax

/-- The dominance test `combined[p] < combined[q]` on indices. -/
def domAt (combined : List NInd) (p q : ℕ) : Bool :=
  nindLt (combined.getD p nindDefault) (combined.getD q nindDefault)

/-- One front (`replacers.py` 346–354): the indices in `pop` whose
individuals are dominated by no individual at an index in `pop`, in
iteration order (the Python `set` of small ints iterates in increasing
order, and `pop` is kept sorted here). -/
def frontIndices (combined : List NInd) (pop : List ℕ) : List ℕ :=
  pop.filter (fun p => !(pop.any (fun q => domAt combined p q)))

/-- The non-dominated sorting loop (`replacers.py` 343–356), with fuel for
the Python `while len(pop) > 0`; fuel `combined.length` suffices because
every front is non-empty. -/
def frontsAux (combined : List NInd) : ℕ → List ℕ → List (List ℕ)
  | 0, _ => []
  | fuel + 1, pop =>
      if pop.isEmpty then []
      else
        let front := frontIndices combined pop
        front :: frontsAux combined fuel (pop.filter (fun p => !(front.contains p)))

def fronts (combined : List NInd) : List (List ℕ) :=
  frontsAux combined combined.length (List.range combined.length)

/-- Objective `obj` of the individual at combined index `i`. -/
def objVal (combined : List NInd) (obj i : ℕ) : ℚ :=
  (combined.getD i nindDefault).pvalues.getD obj 0

/-- `individuals.sort(key=lambda x: x['individual'].fitness[obj])`
(`replacers.py` 371): stable ascending sort of the front's indices by the
given objective. -/
def sortByObj (combined : List NInd) (obj : ℕ) (inds : List ℕ) : List ℕ :=
  inds.mergeSort (fun i j => decide (objVal combined obj i ≤ objVal combined obj j))

/-- One objective round of the crowding-distance computation
(`replacers.py` 371–377): sort the (already possibly re-sorted) front by the
objective, assign infinite distance to the two extreme positions, and add
the raw neighbour gap to each interior member's distance. -/
def crowdObjStep (combined : List NInd) (obj : ℕ)
    (st : List ℕ × List (WithTop ℚ)) : List ℕ × List (WithTop ℚ) :=
  let inds := sortByObj combined obj st.1
  let n := inds.length
  let d1 := st.2.set (inds.getD 0 0) ⊤
  let d2 := d1.set (inds.getD (n - 1) 0) ⊤
  let d3 := (List.range (n - 1 - 1)).foldl (fun d k =>
      let i := k + 1
      d.set (inds.getD i 0)
        ((d.getD (inds.getD i 0) 0)
          + ((objVal combined obj (inds.getD (i + 1) 0)
              - objVal combined obj (inds.getD (i - 1) 0) : ℚ) : WithTop ℚ))) d2
  (inds, d3)

/-- Number of objectives used by the crowding computation
(`replacers.py` 369): the fitness length of the front's first member. -/
def numObjectives (combined : List NInd) (front : List ℕ) : ℕ :=
  (combined.getD (front.getD 0 0) nindDefault).pvalues.length

/-- The crowding-distance computation of `nsga_replacement`
(`replacers.py` 366–377): a distance array indexed by combined index,
initially all zero, updated objective by objective (each in-place Python
sort feeds the next). -/
def crowdingDistances (combined : List NInd) (front : List ℕ) : List (WithTop ℚ) :=
  ((List.range (numObjectives combined front)).foldl
    (fun st obj => crowdObjStep combined obj st)
    (front, List.replicate combined.length (0 : WithTop ℚ))).2

/-- `crowd.sort(key=lambda x: x['dist'], reverse=True)` followed by taking
the individuals (`replacers.py` 379–381): the front's indices, stably
sorted by descending crowding distance. -/
def lastRank (combined : List NInd) (front : List ℕ) : List ℕ :=
  let distance := crowdingDistances combined front
  front.mergeSort (fun i j => decide ((distance.getD j 0) ≤ (distance.getD i 0)))

/-- The admission `while` loop over `last_rank` (`replacers.py` 382–389):
scan in order, skip entries already in `survivors`, stop after `numLeft`
additions. -/
def addWhile (combined : List NInd) : List ℕ → List NInd → ℕ → List NInd
  | [], survivors, _ => survivors
  | r :: rest, survivors, numLeft =>
      if numLeft = 0 then survivors
      else
        let x := combined.getD r nindDefault
        if nindMem x survivors then addWhile combined rest survivors numLeft
        else addWhile combined rest (survivors ++ [x]) (numLeft - 1)

/-- The walk over the fronts (`replacers.py` 363–397): add whole fronts
while they fit (skipping duplicates), and at the front that would overflow
the target admit by descending crowding distance; stop once the target size
is reached. -/
def walkFronts (combined : List NInd) (target : ℕ) :
    List (List ℕ) → List NInd → List NInd
  | [], survivors => survivors
  | front :: rest, survivors =>
      if target < survivors.length + front.length then
        let survivors2 := addWhile combined (lastRank combined front) survivors
          (target - survivors.length)
        if survivors2.length = target then survivors2
        else walkFronts combined target rest survivors2
      else
        walkFronts combined target rest
          (front.foldl (fun s f =>
            let x := combined.getD f nindDefault
            if nindMem x s then s else s ++ [x]) survivors)

/-- `nsga_replacement` (`replacers.py` 327–398): non-dominated sorting of
`population ++ offspring`, then the survivor walk targeting
`len(population)` survivors.  (`parents` is unused by the Python code.) -/
def nsga_replacement (population offspring : List NInd) : List NInd :=
  let combined := population ++ offspring
  walkFronts combined population.length (fronts combined) []

lemma nindEq_symm (a b : NInd) : nindEq a b = nindEq b a := by
  unfold nindEq
  simp [eq_comm]

/-- Under pairwise distinctness of `combined`, individuals at different valid
indices are never equal in the sense of `Individual.__eq__`. -/
lemma nindEq_getD_ne (combined : List NInd)
    (hdist : combined.Pairwise (fun a b => nindEq a b = false))
    (i j : ℕ) (hi : i < combined.length) (hj : j < combined.length)
    (hij : i ≠ j) :
    nindEq (combined.getD i nindDefault) (combined.getD j nindDefault) = false := by
  rw [List.getD_eq_getElem _ _ hi, List.getD_eq_getElem _ _ hj]
  rcases Nat.lt_or_ge i j with h | h
  · exact List.pairwise_iff_getElem.mp hdist i j hi hj h
  · have hji : j < i := by omega
    rw [nindEq_symm]
    exact List.pairwise_iff_getElem.mp hdist j i hj hi hji

/-- Any finite non-empty index list has a member dominated by no other
member, provided the relation is irreflexive and transitive on the list. -/
lemma exists_undominated (r : ℕ → ℕ → Bool) (l : List ℕ) (hl : l ≠ [])
    (hirr : ∀ a ∈ l, r a a = false)
    (htrans : ∀ a ∈ l, ∀ b ∈ l, ∀ c ∈ l, r a b = true → r b c = true → r a c = true) :
    ∃ p ∈ l, ∀ q ∈ l, r p q = false := by
  induction l with
  | nil => exact absurd rfl hl
  | cons x xs ih =>
      by_cases hxs : xs = []
      · subst hxs
        refine ⟨x, by simp, fun q hq => ?_⟩
        simp at hq
        subst hq
        exact hirr q (by simp)
      · obtain ⟨m, hm, hmax⟩ := ih hxs
          (fun a ha => hirr a (by simp [ha]))
          (fun a ha b hb c hc =>
            htrans a (by simp [ha]) b (by simp [hb]) c (by simp [hc]))
        by_cases hr : r m x = true
        · refine ⟨x, by simp, fun q hq => ?_⟩
          rcases List.mem_cons.mp hq with rfl | hq'
          · exact hirr q (by simp)
          · by_contra hxq
            rw [Bool.not_eq_false] at hxq
            have hmq : r m q = true :=
              htrans m (by simp [hm]) x (by simp) q (by simp [hq']) hr hxq
            rw [hmax q hq'] at hmq
            exact Bool.false_ne_true hmq
        · refine ⟨m, by simp [hm], fun q hq => ?_⟩
          rcases List.mem_cons.mp hq with rfl | hq'
          · exact Bool.not_eq_true _ |>.mp hr
          · exact hmax q hq'

lemma length_filter_lt_of_mem_not {α : Type} (p : α → Bool) (l : List α) (x : α)
    (hx : x ∈ l) (hpx : p x = false) : (l.filter p).length < l.length := by
  induction l with
  | nil => simp at hx
  | cons a as ih =>
      rcases List.mem_cons.mp hx with rfl | hx'
      · have h1 : (x :: as).filter p = as.filter p := by
          rw [List.filter_cons, hpx]
          simp
        rw [h1]
        have h2 := List.length_filter_le p as
        simp only [List.length_cons]
        omega
      · by_cases hpa : p a = true
        · have h1 : (a :: as).filter p = a :: as.filter p := by
            rw [List.filter_cons, hpa]
            simp
          rw [h1]
          have h2 := ih hx'
          simp only [List.length_cons]
          omega
        · have h1 : (a :: as).filter p = as.filter p := by
            rw [List.filter_cons]
            simp [hpa]
          rw [h1]
          have h2 := ih hx'
          simp only [List.length_cons]
          omega

lemma mem_frontIndices (combined : List NInd) (pop : List ℕ) (p : ℕ) :
    p ∈ frontIndices combined pop ↔
      p ∈ pop ∧ ∀ q ∈ pop, domAt combined p q = false := by
  unfold frontIndices
  rw [List.mem_filter]
  simp [List.any_eq_false]

lemma frontIndices_ne_nil (combined : List NInd) (pop : List ℕ) (hne : pop ≠ [])
    (hirr : ∀ p ∈ pop, domAt combined p p = false)
    (htr : ∀ a ∈ pop, ∀ b ∈ pop, ∀ c ∈ pop,
      domAt combined a b = true → domAt combined b c = true → domAt combined a c = true) :
    frontIndices combined pop ≠ [] := by
  obtain ⟨p, hp, hmax⟩ := exists_undominated (domAt combined) pop hne hirr htr
  exact List.ne_nil_of_mem ((mem_frontIndices combined pop p).mpr ⟨hp, hmax⟩)

/-- The fronts produced by the non-dominated sorting loop jointly contain
exactly the indices of the input set (as a permutation), provided the fuel
covers the set and dominance is a strict order on it. -/
lemma frontsAux_flatten_perm (combined : List NInd)
    (hirr : ∀ p < combined.length, domAt combined p p = false)
    (htr : ∀ a b c, a < combined.length → b < combined.length → c < combined.length →
      domAt combined a b = true → domAt combined b c = true → domAt combined a c = true) :
    ∀ (fuel : ℕ) (pop : List ℕ), pop.length ≤ fuel →
      (∀ p ∈ pop, p < combined.length) →
      (frontsAux combined fuel pop).flatten.Perm pop := by
  intro fuel
  induction fuel with
  | zero =>
      intro pop hf _hb
      have hpop : pop = [] := List.eq_nil_of_length_eq_zero (by omega)
      subst hpop
      simp [frontsAux]
  | succ fuel ih =>
      intro pop hf hb
      by_cases hpop : pop = []
      · subst hpop
        simp [frontsAux]
      · have hne : pop.isEmpty = false := by simp [hpop]
        have hstep : frontsAux combined (fuel + 1) pop
            = frontIndices combined pop
              :: frontsAux combined fuel
                (pop.filter (fun p => !((frontIndices combined pop).contains p))) := by
          rw [frontsAux, if_neg (by simp [hne])]
        rw [hstep]
        have hP : frontIndices combined pop
            = pop.filter (fun p => !(pop.any (fun q => domAt combined p q))) := rfl
        have hfront_sub : frontIndices combined pop ⊆ pop :=
          fun x hx => (List.mem_filter.mp (hP ▸ hx)).1
        have hfront_ne : frontIndices combined pop ≠ [] :=
          frontIndices_ne_nil combined pop hpop
            (fun p hp => hirr p (hb p hp))
            (fun a ha b hbm c hc => htr a b c (hb a ha) (hb b hbm) (hb c hc))
        have hremP : pop.filter (fun p => !((frontIndices combined pop).contains p))
            = pop.filter (fun p => !(!(pop.any (fun q => domAt combined p q)))) := by
          apply List.filter_congr
          intro a ha
          have hmem : (frontIndices combined pop).contains a
              = !(pop.any (fun q => domAt combined a q)) := by
            by_cases hPa : (!(pop.any (fun q => domAt combined a q))) = true
            · have ham : a ∈ frontIndices combined pop := by
                rw [hP, List.mem_filter]
                exact ⟨ha, hPa⟩
              simp [ham, hPa]
            · have ham : a ∉ frontIndices combined pop := by
                rw [hP, List.mem_filter]
                intro hcon
                exact hPa hcon.2
              simp only [Bool.not_eq_true] at hPa
              simp [ham, hPa]
          rw [hmem]
        have hrem_len :
            (pop.filter (fun p => !((frontIndices combined pop).contains p))).length
              < pop.length := by
          obtain ⟨x, hx⟩ := List.exists_mem_of_ne_nil _ hfront_ne
          refine length_filter_lt_of_mem_not _ pop x (hfront_sub hx) ?_
          simp [hx]
        have hrem_bound :
            ∀ p ∈ pop.filter (fun p => !((frontIndices combined pop).contains p)),
              p < combined.length :=
          fun p hp => hb p (List.mem_of_mem_filter hp)
        have hperm_rest := ih _ (by omega) hrem_bound
        simp only [List.flatten_cons]
        have h1 := hperm_rest.append_left (frontIndices combined pop)
        have h3 := List.filter_append_perm
          (fun p => !(pop.any (fun q => domAt combined p q))) pop
        have h2 : frontIndices combined pop
              ++ pop.filter (fun p => !((frontIndices combined pop).contains p))
            = pop.filter (fun p => !(pop.any (fun q => domAt combined p q)))
              ++ pop.filter (fun p => !(!(pop.any (fun q => domAt combined p q)))) := by
          rw [← hP, ← hremP]
        exact h1.trans (h2 ▸ h3)

lemma nindMem_map_false (combined : List NInd)
    (hdist : combined.Pairwise (fun a b => nindEq a b = false))
    (ids : List ℕ) (f : ℕ) (hf : f ∉ ids) (hfM : f < combined.length)
    (hidsM : ∀ i ∈ ids, i < combined.length) :
    nindMem (combined.getD f nindDefault)
      (ids.map (fun i => combined.getD i nindDefault)) = false := by
  unfold nindMem
  rw [List.any_eq_false]
  simp only [Bool.not_eq_true]
  intro y hy
  rw [List.mem_map] at hy
  obtain ⟨i, hi, rfl⟩ := hy
  exact nindEq_getD_ne combined hdist i f (hidsM i hi) hfM (fun h => hf (h ▸ hi))

lemma addWhile_length (combined : List NInd)
    (hdist : combined.Pairwise (fun a b => nindEq a b = false)) :
    ∀ (rs ids : List ℕ) (numLeft : ℕ),
    (∀ i ∈ ids, i < combined.length) → (∀ r ∈ rs, r < combined.length) →
    (∀ r ∈ rs, r ∉ ids) → rs.Nodup → numLeft ≤ rs.length →
    (addWhile combined rs (ids.map (fun i => combined.getD i nindDefault)) numLeft).length
      = ids.length + numLeft := by
  intro rs
  induction rs with
  | nil =>
      intro ids numLeft _ _ _ _ hn
      have : numLeft = 0 := by simpa using hn
      subst this
      simp [addWhile]
  | cons r rest ih =>
      intro ids numLeft hids hrs hfresh hnd hn
      by_cases h0 : numLeft = 0
      · subst h0
        simp [addWhile]
      · rw [addWhile, if_neg h0]
        have hmem : nindMem (combined.getD r nindDefault)
            (ids.map (fun i => combined.getD i nindDefault)) = false :=
          nindMem_map_false combined hdist ids r (hfresh r (by simp))
            (hrs r (by simp)) hids
        rw [if_neg (by simpa using hmem)]
        have happ : (ids.map (fun i => combined.getD i nindDefault))
              ++ [combined.getD r nindDefault]
            = (ids ++ [r]).map (fun i => combined.getD i nindDefault) := by
          simp
        rw [happ]
        have hres := ih (ids ++ [r]) (numLeft - 1)
          (by
            intro i hi
            rcases List.mem_append.mp hi with hi' | hi'
            · exact hids i hi'
            · simp at hi'
              subst hi'
              exact hrs i (by simp))
          (fun q hq => hrs q (by simp [hq]))
          (by
            intro q hq
            intro hcon
            rcases List.mem_append.mp hcon with hc | hc
            · exact hfresh q (by simp [hq]) hc
            · simp at hc
              subst hc
              exact (List.nodup_cons.mp hnd).1 hq)
          (List.nodup_cons.mp hnd).2
          (by
            simp only [List.length_cons] at hn
            omega)
        rw [hres]
        simp only [List.length_append, List.length_singleton]
        omega

lemma foldFront_fresh (combined : List NInd)
    (hdist : combined.Pairwise (fun a b => nindEq a b = false)) :
    ∀ (front ids : List ℕ),
    (∀ i ∈ ids, i < combined.length) → (∀ p ∈ front, p < combined.length) →
    (∀ p ∈ front, p ∉ ids) → front.Nodup →
    front.foldl (fun s f =>
        let x := combined.getD f nindDefault
        if nindMem x s then s else s ++ [x])
      (ids.map (fun i => combined.getD i nindDefault))
    = (ids ++ front).map (fun i => combined.getD i nindDefault) := by
  intro front
  induction front with
  | nil =>
      intro ids _ _ _ _
      simp
  | cons f fr ih =>
      intro ids hids hfront hfresh hnd
      rw [List.foldl_cons]
      have hmem : nindMem (combined.getD f nindDefault)
          (ids.map (fun i => combined.getD i nindDefault)) = false :=
        nindMem_map_false combined hdist ids f (hfresh f (by simp))
          (hfront f (by simp)) hids
      simp only [hmem, Bool.false_eq_true, if_false]
      have happ : (ids.map (fun i => combined.getD i nindDefault))
            ++ [combined.getD f nindDefault]
          = (ids ++ [f]).map (fun i => combined.getD i nindDefault) := by
        simp
      rw [happ]
      have hres := ih (ids ++ [f])
        (by
          intro i hi
          rcases List.mem_append.mp hi with hi' | hi'
          · exact hids i hi'
          · simp at hi'
            subst hi'
            exact hfront i (by simp))
        (fun p hp => hfront p (by simp [hp]))
        (by
          intro p hp hcon
          rcases List.mem_append.mp hcon with hc | hc
          · exact hfresh p (by simp [hp]) hc
          · simp at hc
            subst hc
            exact (List.nodup_cons.mp hnd).1 hp)
        (List.nodup_cons.mp hnd).2
      rw [hres, List.append_assoc]
      rfl

/-- Under pairwise distinctness, the survivor walk reaches exactly the
target size whenever the fronts jointly hold at least `target` fresh
indices. -/
lemma walkFronts_length (combined : List NInd) (target : ℕ)
    (hdist : combined.Pairwise (fun a b => nindEq a b = false)) :
    ∀ (fr : List (List ℕ)) (ids : List ℕ),
    (ids ++ fr.flatten).Nodup →
    (∀ i ∈ ids ++ fr.flatten, i < combined.length) →
    ids.length ≤ target → target ≤ ids.length + fr.flatten.length →
    (walkFronts combined target fr
      (ids.map (fun i => combined.getD i nindDefault))).length = target := by
  intro fr
  induction fr with
  | nil =>
      intro ids _hnd _hb hle hge
      simp only [List.flatten_nil, List.length_nil, Nat.add_zero] at hge
      rw [walkFronts]
      simp only [List.length_map]
      omega
  | cons front rest ih =>
      intro ids hnd hb hle hge
      simp only [List.flatten_cons] at hnd hb hge
      simp only [List.length_append] at hge
      have hids_bound : ∀ i ∈ ids, i < combined.length :=
        fun i hi => hb i (by simp [hi])
      have hfront_bound : ∀ p ∈ front, p < combined.length :=
        fun p hp => hb p (by simp [hp])
      have hnd' := hnd
      rw [List.nodup_append] at hnd'
      obtain ⟨hids_nd, hfr_nd, hdisj⟩ := hnd'
      rw [List.nodup_append] at hfr_nd
      obtain ⟨hfront_nd, hrest_nd, hfr_disj⟩ := hfr_nd
      have hfront_fresh : ∀ p ∈ front, p ∉ ids := by
        intro p hp hcon
        exact hdisj hcon (by simp [hp])
      by_cases hcut : target < (ids.map (fun i => combined.getD i nindDefault)).length
          + front.length
      · -- the overflowing front: admission by crowding distance fills to target
        have hcut' : target < ids.length + front.length := by
          simpa using hcut
        have hstep : walkFronts combined target (front :: rest)
              (ids.map (fun i => combined.getD i nindDefault))
            = (if (addWhile combined (lastRank combined front)
                    (ids.map (fun i => combined.getD i nindDefault))
                    (target - (ids.map (fun i => combined.getD i nindDefault)).length)).length
                  = target
               then addWhile combined (lastRank combined front)
                    (ids.map (fun i => combined.getD i nindDefault))
                    (target - (ids.map (fun i => combined.getD i nindDefault)).length)
               else walkFronts combined target rest
                    (addWhile combined (lastRank combined front)
                      (ids.map (fun i => combined.getD i nindDefault))
                      (target - (ids.map (fun i => combined.getD i nindDefault)).length))) := by
          rw [walkFronts, if_pos hcut]
        have hperm : (lastRank combined front).Perm front :=
          List.mergeSort_perm front _
        have hlr_bound : ∀ r ∈ lastRank combined front, r < combined.length :=
          fun r hr => hfront_bound r (hperm.mem_iff.mp hr)
        have hlr_fresh : ∀ r ∈ lastRank combined front, r ∉ ids :=
          fun r hr => hfront_fresh r (hperm.mem_iff.mp hr)
        have hlr_nd : (lastRank combined front).Nodup := hperm.symm.nodup hfront_nd
        have hlr_len : (lastRank combined front).length = front.length :=
          hperm.length_eq
        have hlen_map : (ids.map (fun i => combined.getD i nindDefault)).length
            = ids.length := by simp
        have hadd := addWhile_length combined hdist (lastRank combined front) ids
          (target - ids.length) hids_bound hlr_bound hlr_fresh hlr_nd
          (by omega)
        rw [hstep, hlen_map]
        rw [if_pos (by rw [hadd]; omega), hadd]
        omega
      · have hcut' : ¬ target < ids.length + front.length := by
          simpa using hcut
        have hstep : walkFronts combined target (front :: rest)
              (ids.map (fun i => combined.getD i nindDefault))
            = walkFronts combined target rest
                (front.foldl (fun s f =>
                    let x := combined.getD f nindDefault
                    if nindMem x s then s else s ++ [x])
                  (ids.map (fun i => combined.getD i nindDefault))) := by
          rw [walkFronts, if_neg hcut]
        rw [hstep, foldFront_fresh combined hdist front ids hids_bound
          hfront_bound hfront_fresh hfront_nd]
        apply ih (ids ++ front)
        · rw [List.append_assoc]
          exact hnd
        · intro i hi
          rw [List.append_assoc] at hi
          exact hb i hi
        · simp only [List.length_append]
          omega
        · simp only [List.length_append]
          omega

lemma nindLt_self (a : NInd) : nindLt a a = false := by
  unfold nindLt
  split <;> exact paretoLtB_self _ _

/-- Counterexample to C2 as stated: with a population of two equal
individuals (and no offspring), `nsga_replacement` returns a single
survivor, not `len(population) = 2`, because the admission loops skip
individuals already present in the survivor list. -/
theorem nsga_replacement_size_counterexample :
    (nsga_replacement [⟨0, [1, 2], [true, true], true⟩, ⟨0, [1, 2], [true, true], true⟩]
        []).length = 1
    ∧ ([⟨0, [1, 2], [true, true], true⟩, ⟨0, [1, 2], [true, true], true⟩]
        : List NInd).length = 2 := by
  constructor
  · decide
  · rfl

/-- C2 (amended): for a population and offspring of Pareto-fitness
individuals sharing one objective count and polarity (`maximize = True`),
with no two individuals equal, `nsga_replacement` returns exactly
`len(population)` survivors. -/
theorem nsga_replacement_size (population offspring : List NInd) (ms : List Bool)
    (_hne : population ≠ [])
    (hmax : ∀ x ∈ population ++ offspring, x.maximize = true)
    (hpm : ∀ x ∈ population ++ offspring, x.pmax = ms)
    (hlen : ∀ x ∈ population ++ offspring, x.pvalues.length = ms.length)
    (hdist : (population ++ offspring).Pairwise (fun a b => nindEq a b = false)) :
    (nsga_replacement population offspring).length = population.length := by
  set combined := population ++ offspring with hcombined
  have hmem : ∀ p, p < combined.length → combined.getD p nindDefault ∈ combined := by
    intro p hp
    rw [List.getD_eq_getElem _ _ hp]
    exact List.getElem_mem hp
  have hirr : ∀ p < combined.length, domAt combined p p = false := by
    intro p _hp
    unfold domAt
    exact nindLt_self _
  have htr : ∀ a b c, a < combined.length → b < combined.length →
      c < combined.length → domAt combined a b = true → domAt combined b c = true →
      domAt combined a c = true := by
    intro a b c ha hb hc hab hbc
    have hma := hmax _ (hmem a ha)
    have hmb := hmax _ (hmem b hb)
    have hmc := hmax _ (hmem c hc)
    have hpa := hpm _ (hmem a ha)
    have hpb := hpm _ (hmem b hb)
    have hla := hlen _ (hmem a ha)
    have hlb := hlen _ (hmem b hb)
    have hlc := hlen _ (hmem c hc)
    unfold domAt nindLt at hab hbc ⊢
    rw [hma, if_pos rfl, hpa] at hab ⊢
    rw [hmb, if_pos rfl, hpb] at hbc
    exact paretoLtB_trans _ _ _ ms (by omega) (by omega) (by omega) hab hbc
  have hperm : (fronts combined).flatten.Perm (List.range combined.length) :=
    frontsAux_flatten_perm combined hirr htr combined.length
      (List.range combined.length) (by simp) (by simp)
  have hN : population.length ≤ combined.length := by
    rw [hcombined]
    simp only [List.length_append]
    omega
  have hmap0 : ([] : List NInd)
      = ([] : List ℕ).map (fun i => combined.getD i nindDefault) := rfl
  unfold nsga_replacement
  rw [← hcombined, hmap0]
  apply walkFronts_length combined population.length hdist (fronts combined) []
  · simpa using hperm.nodup_iff.mpr (List.nodup_range _)
  · intro i hi
    simp only [List.nil_append] at hi
    have := hperm.mem_iff.mp hi
    simpa using this
  · exact Nat.zero_le _
  · simpa [hperm.length_eq] using hN

/-- Witness for C2 (amended) on a population and offspring of two distinct
mutually non-dominated individuals. -/
theorem nsga_replacement_size_witness :
    (nsga_replacement [⟨0, [1, 2], [true, true], true⟩]
      [⟨1, [2, 1], [true, true], true⟩]).length = 1 :=
  nsga_replacement_size [⟨0, [1, 2], [true, true], true⟩]
    [⟨1, [2, 1], [true, true], true⟩] [true, true]
    (by simp) (by decide) (by decide) (by decide) (by decide)

/-! ## Reference crowding distance (from the specification's words)

The fold in `crowdingDistances` re-sorts the front by each objective in
turn; `sortedUpTo K` is the front's order after the first `K` such sorts.
`refCrowd` is the spec's description with raw neighbour gaps; `refCrowdNorm`
additionally divides every gap by the objective's range over the front, as
C3 claims the code does. -/

def sortedUpTo (combined : List NInd) (front : List ℕ) : ℕ → List ℕ
  | 0 => front
  | k + 1 => sortByObj combined k (sortedUpTo combined front k)

/-- Whether `idx` is one of the two extreme members (first or last) of the
front's order after sorting by objective `k`. -/
def isExtremeB (combined : List NInd) (front : List ℕ) (k idx : ℕ) : Bool :=
  let s := sortedUpTo combined front (k + 1)
  decide (s.getD 0 0 = idx) || decide (s.getD (s.length - 1) 0 = idx)

/-- The raw gap between `idx`'s immediate neighbours in the front's order
after sorting by objective `k`. -/
def gapAt (combined : List NInd) (front : List ℕ) (k idx : ℕ) : ℚ :=
  let s := sortedUpTo combined front (k + 1)
  let p := s.indexOf idx
  objVal combined k (s.getD (p + 1) 0) - objVal combined k (s.getD (p - 1) 0)

/-- Reference crowding distance (raw gaps): an extreme member in any
objective gets infinite distance; an interior member accumulates the gap
between its sorted neighbours, summed across all objectives. -/
def refCrowd (combined : List NInd) (front : List ℕ) (idx : ℕ) : WithTop ℚ :=
  let numObj := numObjectives combined front
  if (List.range numObj).any (fun k => isExtremeB combined front k idx) then ⊤
  else (((List.range numObj).map (fun k => gapAt combined front k idx)).sum : ℚ)

/-- The objective's range (max minus min) over the front. -/
def objRange (combined : List NInd) (front : List ℕ) (k : ℕ) : ℚ :=
  let vals := front.map (fun i => objVal combined k i)
  (vals.max?.getD 0) - (vals.min?.getD 0)

/-- Reference crowding distance as C3 states it: each interior gap
normalized by the objective's range. -/
def refCrowdNorm (combined : List NInd) (front : List ℕ) (idx : ℕ) : WithTop ℚ :=
  let numObj := numObjectives combined front
  if (List.range numObj).any (fun k => isExtremeB combined front k idx) then ⊤
  else (((List.range numObj).map
    (fun k => gapAt combined front k idx / objRange combined front k)).sum : ℚ)

lemma getD_set_ne {α : Type} (l : List α) (i j : ℕ) (v : α) (d : α) (h : i ≠ j) :
    (l.set i v).getD j d = l.getD j d := by
  simp [List.getD_eq_getElem?_getD, List.getElem?_set_ne h]

lemma getD_set_self {α : Type} (l : List α) (i : ℕ) (v : α) (d : α)
    (h : i < l.length) : (l.set i v).getD i d = v := by
  simp [List.getD_eq_getElem?_getD, List.getElem?_set_self h]

section FoldSet

variable {β : Type} [Add β] (cell : ℕ → ℕ) (g : ℕ → β) (z : β)

lemma foldl_set_add_length :
    ∀ (m : ℕ) (d : List β),
    (((List.range m).foldl
        (fun d k => d.set (cell k) ((d.getD (cell k) z) + g k)) d)).length
      = d.length := by
  intro m
  induction m with
  | zero => intro d; simp
  | succ m ih =>
      intro d
      rw [List.range_succ, List.foldl_append]
      simp only [List.foldl_cons, List.foldl_nil, List.length_set]
      exact ih d

lemma foldl_set_add_untouched :
    ∀ (m : ℕ) (d : List β) (idx : ℕ), (∀ k < m, cell k ≠ idx) →
    (((List.range m).foldl
        (fun d k => d.set (cell k) ((d.getD (cell k) z) + g k)) d)).getD idx z
      = d.getD idx z := by
  intro m
  induction m with
  | zero => intro d idx _; simp
  | succ m ih =>
      intro d idx h
      rw [List.range_succ, List.foldl_append]
      simp only [List.foldl_cons, List.foldl_nil]
      rw [getD_set_ne _ _ _ _ _ (h m (by omega))]
      exact ih d idx (fun k hk => h k (by omega))

lemma foldl_set_add_hit :
    ∀ (m : ℕ) (d : List β) (idx k₀ : ℕ), k₀ < m → cell k₀ = idx →
    idx < d.length → (∀ k < m, k ≠ k₀ → cell k ≠ idx) →
    (((List.range m).foldl
        (fun d k => d.set (cell k) ((d.getD (cell k) z) + g k)) d)).getD idx z
      = d.getD idx z + g k₀ := by
  intro m
  induction m with
  | zero =>
      intro d idx k₀ hk _ _ _
      omega
  | succ m ih =>
      intro d idx k₀ hk hcell hlen huniq
      rw [List.range_succ, List.foldl_append]
      simp only [List.foldl_cons, List.foldl_nil]
      by_cases hk₀ : k₀ = m
      · have huntouched := foldl_set_add_untouched cell g z m d idx
          (fun k hklt => huniq k (by omega) (by omega))
        have hcellm : cell m = idx := hk₀ ▸ hcell
        rw [hcellm, getD_set_self _ _ _ _ (by rw [foldl_set_add_length]; exact hlen),
          huntouched, hk₀]
      · have hne : cell m ≠ idx := huniq m (by omega) (by omega)
        rw [getD_set_ne _ _ _ _ _ hne]
        exact ih d idx k₀ (by omega) hcell hlen
          (fun k hklt hkne => huniq k (by omega) hkne)

end FoldSet

lemma sortedUpTo_perm (combined : List NInd) (front : List ℕ) :
    ∀ K, (sortedUpTo combined front K).Perm front := by
  intro K
  induction K with
  | zero => exact List.Perm.refl front
  | succ k ih =>
      exact (List.mergeSort_perm (sortedUpTo combined front k) _).trans ih

/-- The objective-by-objective fold underlying `crowdingDistances`, cut at
`K` rounds. -/
def crowdFold (combined : List NInd) (front : List ℕ) (K : ℕ) :
    List ℕ × List (WithTop ℚ) :=
  (List.range K).foldl (fun st obj => crowdObjStep combined obj st)
    (front, List.replicate combined.length (0 : WithTop ℚ))

lemma crowdingDistances_eq_crowdFold (combined : List NInd) (front : List ℕ) :
    crowdingDistances combined front
      = (crowdFold combined front (numObjectives combined front)).2 := rfl

lemma crowdFold_succ (combined : List NInd) (front : List ℕ) (K : ℕ) :
    crowdFold combined front (K + 1)
      = crowdObjStep combined K (crowdFold combined front K) := by
  rw [crowdFold, crowdFold, List.range_succ, List.foldl_append]
  rfl

lemma crowdObjStep_def (combined : List NInd) (obj : ℕ)
    (st : List ℕ × List (WithTop ℚ)) :
    crowdObjStep combined obj st
      = (sortByObj combined obj st.1,
         (List.range ((sortByObj combined obj st.1).length - 1 - 1)).foldl
           (fun d k =>
             d.set ((sortByObj combined obj st.1).getD (k + 1) 0)
               ((d.getD ((sortByObj combined obj st.1).getD (k + 1) 0) 0)
                 + ((objVal combined obj ((sortByObj combined obj st.1).getD (k + 1 + 1) 0)
                     - objVal combined obj ((sortByObj combined obj st.1).getD (k + 1 - 1) 0)
                     : ℚ) : WithTop ℚ)))
           ((st.2.set ((sortByObj combined obj st.1).getD 0 0) ⊤).set
             ((sortByObj combined obj st.1).getD
               ((sortByObj combined obj st.1).length - 1) 0) ⊤)) := rfl

lemma crowdFold_fst (combined : List NInd) (front : List ℕ) :
    ∀ K, (crowdFold combined front K).1 = sortedUpTo combined front K := by
  intro K
  induction K with
  | zero => rfl
  | succ k ih =>
      rw [crowdFold_succ, crowdObjStep_def]
      simp only
      rw [ih]
      rfl

lemma crowdFold_snd_length (combined : List NInd) (front : List ℕ) :
    ∀ K, (crowdFold combined front K).2.length = combined.length := by
  intro K
  induction K with
  | zero => simp [crowdFold]
  | succ k ih =>
      rw [crowdFold_succ, crowdObjStep_def]
      simp only
      rw [foldl_set_add_length]
      simp [ih]

/-- The distance entry of every front member after `K` rounds of the
crowding fold: infinite as soon as the member was extreme in some processed
objective, otherwise the sum of its raw neighbour gaps. -/
lemma crowdFold_getD (combined : List NInd) (front : List ℕ)
    (hnd : front.Nodup) (hsub : ∀ p ∈ front, p < combined.length)
    (hne : front ≠ []) :
    ∀ K, ∀ idx ∈ front,
    (crowdFold combined front K).2.getD idx 0
      = if (List.range K).any (fun k => isExtremeB combined front k idx)
        then (⊤ : WithTop ℚ)
        else ((((List.range K).map (fun k => gapAt combined front k idx)).sum : ℚ)
          : WithTop ℚ) := by
  intro K
  induction K with
  | zero =>
      intro idx hidx
      have hidxM : idx < combined.length := hsub idx hidx
      simp only [crowdFold, List.range_zero, List.foldl_nil, List.any_nil,
        List.map_nil, List.sum_nil]
      rw [if_neg (by simp)]
      simp [List.getD_eq_getElem?_getD, List.getElem?_replicate, hidxM]
  | succ K ih =>
      intro idx hidx
      have hidxM : idx < combined.length := hsub idx hidx
      rw [crowdFold_succ, crowdObjStep_def]
      simp only
      rw [crowdFold_fst]
      have hdlen : (crowdFold combined front K).2.length = combined.length :=
        crowdFold_snd_length combined front K
      set d := (crowdFold combined front K).2 with hd
      set s := sortByObj combined K (sortedUpTo combined front K) with hs
      have hsEq : s = sortedUpTo combined front (K + 1) := hs.trans rfl
      have hsperm : s.Perm front := hsEq ▸ sortedUpTo_perm combined front (K + 1)
      have hsnd : s.Nodup := (hsperm.nodup_iff).mpr hnd
      have hn1 : 1 ≤ s.length := by
        have hf : front.length ≠ 0 := fun h => hne (List.eq_nil_of_length_eq_zero h)
        have := hsperm.length_eq
        omega
      have hmem : idx ∈ s := hsperm.mem_iff.mpr hidx
      have hgetD : ∀ q (hq : q < s.length), s.getD q 0 = s[q] :=
        fun q hq => List.getD_eq_getElem s 0 hq
      have hinj : ∀ q1 q2 (h1 : q1 < s.length) (h2 : q2 < s.length),
          s[q1] = s[q2] → q1 = q2 := by
        intro q1 q2 h1 h2 hvals
        exact (List.Nodup.getElem_inj_iff hsnd).mp hvals
      have hKext : isExtremeB combined front K idx
          = (decide (s.getD 0 0 = idx) || decide (s.getD (s.length - 1) 0 = idx)) := by
        unfold isExtremeB
        rw [← hsEq]
      by_cases hext : s.getD 0 0 = idx ∨ s.getD (s.length - 1) 0 = idx
      · -- extreme at this objective: the entry is set (and stays) infinite
        have hd2 : ((d.set (s.getD 0 0) ⊤).set (s.getD (s.length - 1) 0) ⊤).getD idx 0
            = ⊤ := by
          by_cases h1 : s.getD (s.length - 1) 0 = idx
          · rw [h1]
            exact getD_set_self _ _ _ _ (by simp [hdlen, hidxM])
          · rcases hext with h | h
            · rw [getD_set_ne _ _ _ _ _ h1, h]
              exact getD_set_self _ _ _ _ (by rw [hdlen]; exact hidxM)
            · exact absurd h h1
        have huntouched : ∀ k < s.length - 1 - 1, s.getD (k + 1) 0 ≠ idx := by
          intro k hk hcon
          have hk1 : k + 1 < s.length := by omega
          rcases hext with h | h
          · have h0 : (0 : ℕ) < s.length := by omega
            rw [hgetD _ hk1] at hcon
            rw [hgetD _ h0] at h
            have := hinj _ _ hk1 h0 (hcon.trans h.symm)
            omega
          · have hl : s.length - 1 < s.length := by omega
            rw [hgetD _ hk1] at hcon
            rw [hgetD _ hl] at h
            have := hinj _ _ hk1 hl (hcon.trans h.symm)
            omega
        have hfold := foldl_set_add_untouched
          (fun k => s.getD (k + 1) 0)
          (fun k => ((objVal combined K (s.getD (k + 1 + 1) 0)
              - objVal combined K (s.getD (k + 1 - 1) 0) : ℚ) : WithTop ℚ))
          (0 : WithTop ℚ)
          (s.length - 1 - 1)
          ((d.set (s.getD 0 0) ⊤).set (s.getD (s.length - 1) 0) ⊤)
          idx huntouched
        have hcond : (List.range (K + 1)).any
            (fun k => isExtremeB combined front k idx) = true := by
          rw [List.range_succ, List.any_append]
          apply Bool.or_eq_true_iff.mpr
          right
          simp only [List.any_cons, List.any_nil, Bool.or_false]
          rw [hKext]
          rcases hext with h | h <;> rw [h] <;> simp
        rw [if_pos hcond]
        exact hfold.trans hd2
      · -- interior at this objective: the entry accumulates the raw gap
        push_neg at hext
        obtain ⟨hne0, hne1⟩ := hext
        have hplt0 : s.indexOf idx < s.length := List.indexOf_lt_length.mpr hmem
        have hpget0 : s[s.indexOf idx] = idx := List.getElem_indexOf hplt0
        set p := s.indexOf idx with hp
        have hplt : p < s.length := hplt0
        have hpget : s[p] = idx := hpget0
        have hp0 : p ≠ 0 := by
          intro h0
          rw [hgetD 0 (by omega)] at hne0
          simp only [h0] at hpget
          exact hne0 hpget
        have hp1 : p ≠ s.length - 1 := by
          intro h1
          rw [hgetD (s.length - 1) (by omega)] at hne1
          simp only [h1] at hpget
          exact hne1 hpget
        have hn2 : 2 ≤ s.length := by omega
        have hk₀lt : p - 1 < s.length - 1 - 1 := by omega
        have hcell : s.getD ((p - 1) + 1) 0 = idx := by
          have : (p - 1) + 1 = p := by omega
          rw [this, hgetD p hplt]
          exact hpget
        have huniq : ∀ k < s.length - 1 - 1, k ≠ p - 1 → s.getD (k + 1) 0 ≠ idx := by
          intro k hk hkne hcon
          have hk1 : k + 1 < s.length := by omega
          rw [hgetD _ hk1] at hcon
          have := hinj _ _ hk1 hplt (hcon.trans hpget.symm)
          omega
        have hd2len : ((d.set (s.getD 0 0) ⊤).set (s.getD (s.length - 1) 0) ⊤).length
            = combined.length := by simp [hdlen]
        have hfold := foldl_set_add_hit
          (fun k => s.getD (k + 1) 0)
          (fun k => ((objVal combined K (s.getD (k + 1 + 1) 0)
              - objVal combined K (s.getD (k + 1 - 1) 0) : ℚ) : WithTop ℚ))
          (0 : WithTop ℚ)
          (s.length - 1 - 1)
          ((d.set (s.getD 0 0) ⊤).set (s.getD (s.length - 1) 0) ⊤)
          idx (p - 1) hk₀lt hcell (by rw [hd2len]; exact hidxM) huniq
        beta_reduce at hfold
        have hd2val : ((d.set (s.getD 0 0) ⊤).set (s.getD (s.length - 1) 0) ⊤).getD idx 0
            = d.getD idx 0 := by
          rw [getD_set_ne _ _ _ _ _ hne1, getD_set_ne _ _ _ _ _ hne0]
        have hgap : ((objVal combined K (s.getD ((p - 1) + 1 + 1) 0)
            - objVal combined K (s.getD ((p - 1) + 1 - 1) 0) : ℚ) : WithTop ℚ)
            = ((gapAt combined front K idx : ℚ) : WithTop ℚ) := by
          have e1 : (p - 1) + 1 + 1 = p + 1 := by omega
          have e2 : (p - 1) + 1 - 1 = p - 1 := by omega
          rw [e1, e2]
          simp only [gapAt]
          rw [← hsEq]
        have hKextF : isExtremeB combined front K idx = false := by
          rw [hKext]
          rw [Bool.or_eq_false_iff]
          exact ⟨decide_eq_false hne0, decide_eq_false hne1⟩
        have hany : (List.range (K + 1)).any (fun k => isExtremeB combined front k idx)
            = (List.range K).any (fun k => isExtremeB combined front k idx) := by
          rw [List.range_succ, List.any_append]
          simp [hKextF]
        have hsum : ((List.range (K + 1)).map (fun k => gapAt combined front k idx)).sum
            = ((List.range K).map (fun k => gapAt combined front k idx)).sum
              + gapAt combined front K idx := by
          rw [List.range_succ, List.map_append, List.sum_append]
          simp
        rw [hany]
        by_cases hanyK : (List.range K).any (fun k => isExtremeB combined front k idx) = true
        · rw [if_pos hanyK]
          have hdval : d.getD idx 0 = ⊤ := by
            rw [hd]
            rw [ih idx hidx, if_pos hanyK]
          refine hfold.trans ?_
          rw [hd2val, hdval, hgap]
          exact WithTop.top_add _
        · rw [if_neg hanyK]
          have hdval : d.getD idx 0
              = (((List.range K).map (fun k => gapAt combined front k idx)).sum : ℚ) := by
            rw [hd]
            rw [ih idx hidx, if_neg hanyK]
          refine hfold.trans ?_
          rw [hd2val, hdval, hgap, hsum]
          exact (WithTop.coe_add _ _).symm

/-- Counterexample to C3 as stated: on the one-objective front with fitness
values 0, 1, 10, the code's crowding distance for the interior member is the
raw neighbour gap 10, while the normalized reference definition gives
10/10 = 1. -/
theorem nsga_crowding_normalization_counterexample :
    (crowdingDistances
        [⟨0, [0], [true], true⟩, ⟨1, [1], [true], true⟩, ⟨2, [10], [true], true⟩]
        [0, 1, 2]).getD 1 0 = ((10 : ℚ) : WithTop ℚ)
    ∧ refCrowdNorm
        [⟨0, [0], [true], true⟩, ⟨1, [1], [true], true⟩, ⟨2, [10], [true], true⟩]
        [0, 1, 2] 1 = ((1 : ℚ) : WithTop ℚ)
    ∧ ((10 : ℚ) : WithTop ℚ) ≠ ((1 : ℚ) : WithTop ℚ) := by
  have hsort : sortByObj
      [⟨0, [0], [true], true⟩, ⟨1, [1], [true], true⟩, ⟨2, [10], [true], true⟩]
      0 [0, 1, 2] = [0, 1, 2] := by
    apply List.mergeSort_of_sorted
    decide
  have hs1 : sortedUpTo
      [⟨0, [0], [true], true⟩, ⟨1, [1], [true], true⟩, ⟨2, [10], [true], true⟩]
      [0, 1, 2] 1 = [0, 1, 2] := hsort
  refine ⟨?_, ?_, by decide⟩
  · rw [crowdingDistances_eq_crowdFold]
    show ((crowdFold
      [⟨0, [0], [true], true⟩, ⟨1, [1], [true], true⟩, ⟨2, [10], [true], true⟩]
      [0, 1, 2] 1).2.getD 1 0) = ((10 : ℚ) : WithTop ℚ)
    rw [crowdFold_succ, crowdObjStep_def]
    simp only
    rw [show (crowdFold
        [⟨0, [0], [true], true⟩, ⟨1, [1], [true], true⟩, ⟨2, [10], [true], true⟩]
        [0, 1, 2] 0)
      = ([0, 1, 2], List.replicate 3 (0 : WithTop ℚ)) from rfl]
    simp only
    rw [hsort]
    rw [show ([0, 1, 2] : List ℕ).length - 1 - 1 = 1 from rfl,
      show List.range 1 = [0] from rfl]
    simp only [List.foldl_cons, List.foldl_nil]
    rw [show List.replicate 3 (0 : WithTop ℚ) = [0, 0, 0] from rfl]
    simp only [List.getD_cons_zero, List.getD_cons_succ]
    norm_num [objVal, nindDefault, List.getD_cons_zero, List.getD_cons_succ]
  · simp only [refCrowdNorm, numObjectives]
    rw [show List.range
        (([(⟨0, [0], [true], true⟩ : NInd), ⟨1, [1], [true], true⟩,
          ⟨2, [10], [true], true⟩].getD (([0, 1, 2] : List ℕ).getD 0 0)
            nindDefault).pvalues.length) = [0] from rfl]
    simp only [List.any_cons, List.any_nil, List.map_cons, List.map_nil,
      isExtremeB, gapAt, hs1]
    norm_num [objRange, objVal, nindDefault]

/-- C3 (amended): on the cutoff front, the crowding distance the code
computes equals the raw-gap reference definition (per objective: sort the
front by that objective, give the two extreme members infinite distance,
and add the un-normalized neighbour gap to interior members, summing across
objectives); the per-objective boundary (minimum and maximum) members
receive infinite distance; and `last_rank` lists the front in
non-increasing crowding-distance order, which is the admission order. -/
theorem nsga_crowding_distance (combined : List NInd) (front : List ℕ)
    (hnd : front.Nodup) (hsub : ∀ p ∈ front, p < combined.length)
    (hne : front ≠ []) :
    (∀ idx ∈ front,
        (crowdingDistances combined front).getD idx 0 = refCrowd combined front idx)
    ∧ (∀ k < numObjectives combined front,
        ∃ imin ∈ front, ∃ imax ∈ front,
          (∀ j ∈ front, objVal combined k imin ≤ objVal combined k j)
          ∧ (∀ j ∈ front, objVal combined k j ≤ objVal combined k imax)
          ∧ (crowdingDistances combined front).getD imin 0 = ⊤
          ∧ (crowdingDistances combined front).getD imax 0 = ⊤)
    ∧ List.Pairwise (fun i j =>
          (crowdingDistances combined front).getD j 0
            ≤ (crowdingDistances combined front).getD i 0)
        (lastRank combined front) := by
  have hpart1 : ∀ idx ∈ front,
      (crowdingDistances combined front).getD idx 0 = refCrowd combined front idx := by
    intro idx hidx
    rw [crowdingDistances_eq_crowdFold,
      crowdFold_getD combined front hnd hsub hne (numObjectives combined front) idx hidx]
    rfl
  refine ⟨hpart1, ?_, ?_⟩
  · intro k hk
    set s := sortedUpTo combined front (k + 1) with hsdef
    have hsperm : s.Perm front := sortedUpTo_perm combined front (k + 1)
    have hn1 : 1 ≤ s.length := by
      have hf : front.length ≠ 0 := fun h => hne (List.eq_nil_of_length_eq_zero h)
      have := hsperm.length_eq
      omega
    have htrans : ∀ (a b c : ℕ),
        (fun i j => decide (objVal combined k i ≤ objVal combined k j)) a b = true →
        (fun i j => decide (objVal combined k i ≤ objVal combined k j)) b c = true →
        (fun i j => decide (objVal combined k i ≤ objVal combined k j)) a c = true := by
      intro a b c hab hbc
      simp only [decide_eq_true_eq] at hab hbc ⊢
      exact le_trans hab hbc
    have htotal : ∀ (a b : ℕ),
        ((fun i j => decide (objVal combined k i ≤ objVal combined k j)) a b
          || (fun i j => decide (objVal combined k i ≤ objVal combined k j)) b a) = true := by
      intro a b
      simp only [Bool.or_eq_true, decide_eq_true_eq]
      exact le_total _ _
    have hsorted0 := List.sorted_mergeSort htrans htotal (sortedUpTo combined front k)
    have hsorted : s.Pairwise
        (fun i j => objVal combined k i ≤ objVal combined k j) := by
      refine List.Pairwise.imp ?_ hsorted0
      intro a b hab
      simpa using hab
    have hgetD : ∀ q (hq : q < s.length), s.getD q 0 = s[q] :=
      fun q hq => List.getD_eq_getElem s 0 hq
    have hpair := List.pairwise_iff_getElem.mp hsorted
    have hminmem : s.getD 0 0 ∈ front := by
      rw [hgetD 0 (by omega)]
      exact hsperm.mem_iff.mp (List.getElem_mem _)
    have hmaxmem : s.getD (s.length - 1) 0 ∈ front := by
      rw [hgetD (s.length - 1) (by omega)]
      exact hsperm.mem_iff.mp (List.getElem_mem _)
    refine ⟨s.getD 0 0, hminmem, s.getD (s.length - 1) 0, hmaxmem, ?_, ?_, ?_, ?_⟩
    · intro j hj
      obtain ⟨q, hq, rfl⟩ := List.mem_iff_getElem.mp (hsperm.mem_iff.mpr hj)
      rw [hgetD 0 (by omega)]
      rcases Nat.eq_zero_or_pos q with rfl | hq0
      · exact le_refl _
      · exact hpair 0 q (by omega) hq hq0
    · intro j hj
      obtain ⟨q, hq, rfl⟩ := List.mem_iff_getElem.mp (hsperm.mem_iff.mpr hj)
      rw [hgetD (s.length - 1) (by omega)]
      by_cases hql : q = s.length - 1
      · subst hql
        exact le_refl _
      · exact hpair q (s.length - 1) hq (by omega) (by omega)
    · rw [hpart1 _ hminmem]
      have hext : isExtremeB combined front k (s.getD 0 0) = true := by
        unfold isExtremeB
        rw [← hsdef]
        simp
      simp only [refCrowd]
      rw [if_pos (List.any_eq_true.mpr ⟨k, List.mem_range.mpr hk, hext⟩)]
    · rw [hpart1 _ hmaxmem]
      have hext : isExtremeB combined front k (s.getD (s.length - 1) 0) = true := by
        unfold isExtremeB
        rw [← hsdef]
        simp
      simp only [refCrowd]
      rw [if_pos (List.any_eq_true.mpr ⟨k, List.mem_range.mpr hk, hext⟩)]
  · have htrans : ∀ (a b c : ℕ),
        (fun i j => decide ((crowdingDistances combined front).getD j 0
          ≤ (crowdingDistances combined front).getD i 0)) a b = true →
        (fun i j => decide ((crowdingDistances combined front).getD j 0
          ≤ (crowdingDistances combined front).getD i 0)) b c = true →
        (fun i j => decide ((crowdingDistances combined front).getD j 0
          ≤ (crowdingDistances combined front).getD i 0)) a c = true := by
      intro a b c hab hbc
      simp only [decide_eq_true_eq] at hab hbc ⊢
      exact le_trans hbc hab
    have htotal : ∀ (a b : ℕ),
        ((fun i j => decide ((crowdingDistances combined front).getD j 0
          ≤ (crowdingDistances combined front).getD i 0)) a b
          || (fun i j => decide ((crowdingDistances combined front).getD j 0
          ≤ (crowdingDistances combined front).getD i 0)) b a) = true := by
      intro a b
      simp only [Bool.or_eq_true, decide_eq_true_eq]
      exact le_total _ _
    have hsorted0 := List.sorted_mergeSort htrans htotal front
    refine List.Pairwise.imp ?_ hsorted0
    intro a b hab
    simpa using hab

/-- Witness for C3 (amended) on a concrete one-objective front. -/
theorem nsga_crowding_distance_witness :
    (crowdingDistances
        [⟨0, [0], [true], true⟩, ⟨1, [1], [true], true⟩, ⟨2, [10], [true], true⟩]
        [0, 1, 2]).getD 0 0
      = refCrowd
        [⟨0, [0], [true], true⟩, ⟨1, [1], [true], true⟩, ⟨2, [10], [true], true⟩]
        [0, 1, 2] 0 :=
  (nsga_crowding_distance
    [⟨0, [0], [true], true⟩, ⟨1, [1], [true], true⟩, ⟨2, [10], [true], true⟩]
    [0, 1, 2] (by decide) (by decide) (by decide)).1 0 (by decide)

/-! ## Adaptive-grid archiver (`inspyred/ec/archivers.py`, lines 121–256)

Individuals here carry a Pareto fitness with the default all-`True` polarity
(a plain `Pareto(values)`), plus the `grid_location` attribute the archiver
assigns.  `Individual.__eq__` compares candidate and fitness values (not
`grid_location`).  Python list indexing (negative wrap-around, `IndexError`)
is modelled by `pyGet`/`pyIncr` returning `Option`. -/

structure AInd where
  candidate : ℕ
  fit : List ℚ
  loc : ℤ
deriving Repr, DecidableEq

def aindDefault : AInd := ⟨0, [], 0⟩

/-- `Individual.__eq__` restricted to what it compares: candidate and
fitness values (`maximize` is `True` throughout the archiver context). -/
def aindEq (a b : AInd) : Bool :=
  decide (a.candidate = b.candidate) && decide (a.fit = b.fit)

/-- `a < b` on archiver individuals: Pareto dominance with the default
all-`True` polarity list built by the `Pareto` constructor. -/
def aindLt (a b : AInd) : Bool :=
  paretoLtB a.fit b.fit (List.replicate a.fit.length true)

/-- Python `l[i]` on a list of counts: negative indices wrap from the end;
out-of-range raises (`none`). -/
def pyGet (l : List ℕ) (i : ℤ) : Option ℕ :=
  let j := if i < 0 then (l.length : ℤ) + i else i
  if 0 ≤ j ∧ j < (l.length : ℤ) then some (l.getD j.toNat 0) else none

/-- Python `l[i] += 1` with the same indexing semantics. -/
def pyIncr (l : List ℕ) (i : ℤ) : Option (List ℕ) :=
  let j := if i < 0 then (l.length : ℤ) + i else i
  if 0 ≤ j ∧ j < (l.length : ℤ) then some (l.set j.toNat (l.getD j.toNat 0 + 1))
  else none

/-- The range-check loop of `get_grid_location` (`archivers.py` 149–151),
with Python's short-circuit `or`: returns `some true` when some fitness
component falls outside the padded bounds (the function then returns the
sentinel −1), `some false` when all components pass, `none` on an index
error. -/
def gglCheck (ls gl gs : List ℚ) : List (ℕ × ℚ) → Option Bool
  | [] => some false
  | (i, f) :: rest =>
      match ls.get? i with
      | none => none
      | some lsi =>
          if f < lsi then some true
          else
            match gl.get? i, gs.get? i with
            | some gli, some gsi =>
                if f > lsi + gli - gsi then some true
                else gglCheck ls gl gs rest
            | _, _ => none

/-- State of the bisection loop of `get_grid_location`: the accumulated
location, the per-objective increments, widths and the moving
`local_smallest`. -/
structure GglState where
  loc : ℤ
  inc : List ℤ
  width : List ℚ
  localSmallest : List ℚ
deriving Repr, DecidableEq

/-- The inner loop over objectives of one bisection round
(`archivers.py` 157–161). -/
def gglRound (numObjectives : ℕ) (fitness : List ℚ) (st : GglState) : GglState :=
  let st1 := (fitness.enum).foldl (fun st p =>
    let i := p.1
    let f := p.2
    if f < st.width.getD i 0 / 2 + st.localSmallest.getD i 0 then
      { st with loc := st.loc + st.inc.getD i 0 }
    else
      { st with localSmallest :=
          st.localSmallest.set i (st.localSmallest.getD i 0 + st.width.getD i 0 / 2) }) st
  (List.range numObjectives).foldl (fun st i =>
    { st with
      inc := st.inc.set i (st.inc.getD i 0 * (numObjectives * 2))
      width := st.width.set i (st.width.getD i 0 / 2) }) st1

/-- `get_grid_location` (`archivers.py` 142–165).  Index errors are `none`;
an out-of-range fitness component yields the sentinel `some (-1)`. -/
def getGridLocation (fitness : List ℚ) (numGridDivisions : ℕ)
    (globalSmallest globalLargest : List ℚ) : Option ℤ := do
  let numObjectives := fitness.length
  let hit ← gglCheck globalSmallest globalLargest globalSmallest fitness.enum
  if hit then
    pure (-1)
  else do
    -- inc[i] = 2^i, width[i] = global_largest[i] - global_smallest[i]
    let width ← (List.range numObjectives).mapM (fun i => do
      let gli ← globalLargest.get? i
      let gsi ← globalSmallest.get? i
      pure (gli - gsi))
    let inc := (List.range numObjectives).map (fun i => ((2 : ℤ) ^ i))
    let st := (List.range numGridDivisions).foldl
      (fun st _ => gglRound numObjectives fitness st)
      ⟨0, inc, width, globalSmallest⟩
    pure st.loc

/-- The archiver's cross-call grid state (the attributes stored on the
`adaptive_grid_archiver` function object). -/
structure GridState where
  globalSmallest : List ℚ
  globalLargest : List ℚ
  gridPopulation : List ℕ
deriving Repr, DecidableEq

/-- First-call initialization of the grid state
(`archivers.py` 192–197); `none` models `min([])` on an empty population. -/
def initGridState (population : List AInd) (numGridDivisions : ℕ) :
    Option GridState :=
  match (population.map (fun p => p.fit.length)).min? with
  | none => none
  | some m =>
      some ⟨List.replicate m 0, List.replicate m 0,
        List.replicate (2 ^ (m * numGridDivisions)) 0⟩

/-- Assign grid locations to a list of individuals, incrementing the
occupancy cell of each computed location (`archivers.py` 181–184); note the
count is incremented through Python indexing even when the location is the
sentinel −1 (which wraps to the last cell). -/
def assignLocs (numGridDivisions : ℕ) (gs gl : List ℚ) :
    List AInd → List ℕ → Option (List AInd × List ℕ)
  | [], gp => some ([], gp)
  | a :: rest, gp => do
      let loc ← getGridLocation a.fit numGridDivisions gs gl
      let gp1 ← pyIncr gp loc
      let (rest1, gp2) ← assignLocs numGridDivisions gs gl rest gp1
      pure ({ a with loc := loc } :: rest1, gp2)

/-- `update_grid` (`archivers.py` 167–187): recompute the padded global
bounds over archive ∪ {individual}, zero the occupancy array, then assign
grid locations (and bump occupancy counts) for every archive member and the
individual. -/
def updateGrid (individual : AInd) (archive : List AInd)
    (numGridDivisions : ℕ) (st : GridState) :
    Option (AInd × List AInd × GridState) := do
  let numObjectives :=
    if archive.length = 0 then individual.fit.length
    else min (((archive.map (fun a => a.fit.length)).min?).getD 0)
      individual.fit.length
  let smallest := (List.range numObjectives).map (fun o =>
    if archive.length = 0 then individual.fit.getD o 0
    else min (((archive.map (fun a => a.fit.getD o 0)).min?).getD 0)
      (individual.fit.getD o 0))
  let largest := (List.range numObjectives).map (fun o =>
    if archive.length = 0 then individual.fit.getD o 0
    else max (((archive.map (fun a => a.fit.getD o 0)).max?).getD 0)
      (individual.fit.getD o 0))
  -- global_smallest[i] = smallest[i] - |0.2*smallest[i]|, likewise largest
  if numObjectives ≤ st.globalSmallest.length
      ∧ numObjectives ≤ st.globalLargest.length then do
    let gs := (List.range numObjectives).foldl (fun acc i =>
      acc.set i (smallest.getD i 0 - |(2 : ℚ)/10 * smallest.getD i 0|))
      st.globalSmallest
    let gl := (List.range numObjectives).foldl (fun acc i =>
      acc.set i (largest.getD i 0 + |(2 : ℚ)/10 * largest.getD i 0|))
      st.globalLargest
    let gp0 := List.replicate st.gridPopulation.length 0
    let (archive1, gp1) ← assignLocs numGridDivisions gs gl archive gp0
    let loc ← getGridLocation individual.fit numGridDivisions gs gl
    let gp2 ← pyIncr gp1 loc
    pure ({ individual with loc := loc }, archive1, ⟨gs, gl, gp2⟩)
  else none

/-- The first inner loop over the archive (`archivers.py` 215–221): replace
the first member the candidate dominates (setting `join`), collect the other
dominated members into `removal_set` (deduplicated by `Individual.__eq__`).
Returns the updated archive list, the `join` flag, and the removal set. -/
def joinLoop (ind : AInd) : List AInd → Bool → List AInd →
    (List AInd × Bool × List AInd)
  | [], join, rem => ([], join, rem)
  | a :: rest, join, rem =>
      if aindLt a ind then
        if !join then
          let (rest1, join1, rem1) := joinLoop ind rest true rem
          (ind :: rest1, join1, rem1)
        else
          let rem' := if rem.any (fun r => aindEq r a) then rem else rem ++ [a]
          let (rest1, join1, rem1) := joinLoop ind rest join rem'
          (a :: rest1, join1, rem1)
      else
        let (rest1, join1, rem1) := joinLoop ind rest join rem
        (a :: rest1, join1, rem1)

/-- The most-crowded-member search (`archivers.py` 246–251), threading
Python indexing of the occupancy array (which may raise). -/
def findReplacement (gp : List ℕ) :
    List AInd → ℕ → ℤ → ℕ → Bool → Option (ℕ × Bool)
  | [], _, _, ri, found => some (ri, found)
  | a :: rest, i, most, ri, found => do
      let popAtA ← pyGet gp a.loc
      if (popAtA : ℤ) > most then findReplacement gp rest (i + 1) popAtA i true
      else findReplacement gp rest (i + 1) most ri found

/-- One iteration of the archiver's population loop
(`archivers.py` 200–255) for a single considered individual.

The Python `for ind in new_archive` loop at lines 228–231 REBINDS the name
`ind`: after it, `ind` refers to the last element of `new_archive`, not to
the considered candidate.  The subsequent insertion code (lines 234–255)
therefore operates on that archive member; this model reproduces the
rebinding faithfully (`indBugged`).  Because line 241 mutates that member
object's `grid_location` in place, and the member (if not removed) is the
last element of the filtered archive, the max-size branch updates that last
element as well. -/
def archiverStep (maxArchiveSize numGridDivisions : ℕ)
    (archive : List AInd) (st : GridState) (ind : AInd) :
    Option (List AInd × GridState) := do
  let (ind1, archive1, st1) ← updateGrid ind archive numGridDivisions st
  let shouldBeAdded := !(archive1.any (fun a => aindEq ind1 a || aindLt ind1 a))
  if !shouldBeAdded then
    pure (archive1, st1)
  else
    if archive1.length = 0 then
      pure (archive1 ++ [ind1], st1)
    else do
      let (archive2, join, removalSet) := joinLoop ind1 archive1 false []
      let temp := archive2.filter (fun x => !(removalSet.any (fun r => aindEq r x)))
      -- the rebound `ind`: the last element iterated by the temp loop
      let indBugged := archive2.getLastD aindDefault
      if !join then
        if temp.length = maxArchiveSize then do
          let loc ← getGridLocation indBugged.fit numGridDivisions
            st1.globalSmallest st1.globalLargest
          let ind2 := { indBugged with loc := loc }
          -- the in-place mutation of the (aliased) last surviving member
          let lastKept := !(removalSet.any (fun r => aindEq r indBugged))
          let temp2 := if lastKept then temp.dropLast ++ [ind2] else temp
          let most : ℤ := if 0 ≤ ind2.loc then
              match pyGet st1.gridPopulation ind2.loc with
              | some v => (v : ℤ)
              | none => -1
            else -1
          -- (a non-negative location out of the array's range would raise in
          -- Python; that cannot occur since locations are computed from the
          -- same bounds, and the branch is kept total here)
          let (ri, found) ← findReplacement st1.gridPopulation temp2 0 most 0 false
          if found then pure (temp2.set ri ind2, st1) else pure (temp2, st1)
        else
          pure (temp ++ [indBugged], st1)
      else
        pure (temp, st1)

/-- `adaptive_grid_archiver`'s main loop over the population
(`archivers.py` 199–256), threading the function-attribute grid state. -/
def adaptive_grid_archiver (maxArchiveSize numGridDivisions : ℕ) :
    List AInd → List AInd → GridState → Option (List AInd × GridState)
  | [], archive, st => some (archive, st)
  | ind :: rest, archive, st => do
      let (archive1, st1) ← archiverStep maxArchiveSize numGridDivisions archive st ind
      adaptive_grid_archiver maxArchiveSize numGridDivisions rest archive1 st1

/-- C1 (code bug): archive `[A]` with `A.fitness = [0, 1]`, candidate `B`
with `B.fitness = [1, 0]` (mutually non-dominated with `A` and not equal to
it), `max_archive_size = 2`, `num_grid_divisions = 1`, fresh grid state.
The claim (and the PAES design) requires the returned archive `[A, B]`;
the code returns `[A, A]`: the `for ind in new_archive` filtering loop at
`archivers.py` 229 rebinds `ind` to the last archive member, so line 255
appends that member again and the candidate is lost. -/
theorem adaptive_grid_archiver_room_branch_drops_candidate :
    adaptive_grid_archiver 2 1 [⟨1, [1, 0], 0⟩] [⟨0, [0, 1], 0⟩]
        ⟨[0, 0], [0, 0], [0, 0, 0, 0]⟩
      = some ([⟨0, [0, 1], 1⟩, ⟨0, [0, 1], 1⟩],
          ⟨[0, 0], [6/5, 6/5], [0, 1, 1, 0]⟩)
    ∧ (∀ x ∈ [(⟨0, [0, 1], 1⟩ : AInd), ⟨0, [0, 1], 1⟩], x.candidate ≠ 1) := by
  have h3 : updateGrid ⟨1, [1, 0], 0⟩ [⟨0, [0, 1], 0⟩] 1 ⟨[0, 0], [0, 0], [0, 0, 0, 0]⟩
      = some (⟨1, [1, 0], 2⟩, [⟨0, [0, 1], 1⟩], ⟨[0, 0], [6/5, 6/5], [0, 1, 1, 0]⟩) := by
    norm_num [updateGrid, assignLocs, getGridLocation, gglCheck, gglRound,
      List.enum, List.enumFrom, List.range_succ, List.mapM, List.mapM.loop,
      Option.bind, List.foldl, pyIncr, List.min?, List.max?, abs,
      List.replicate, Int.toNat, List.set]
  have hjoin : joinLoop ⟨1, [1, 0], 2⟩ [⟨0, [0, 1], 1⟩] false []
      = ([⟨0, [0, 1], 1⟩], false, []) := by decide
  have hfold : List.foldl paretoStep (true, false)
      ([((1 : ℚ), (0 : ℚ)), ((0 : ℚ), (1 : ℚ))].zip (List.replicate 2 true))
      = (false, true) := by decide
  refine ⟨?_, by decide⟩
  simp only [adaptive_grid_archiver, archiverStep]
  rw [h3]
  norm_num [Option.bind, hjoin, hfold, aindEq, aindLt, paretoLtB,
    List.filter, List.getLastD, List.getLast?]

lemma gglCheck_some_true (ls gl gs : List ℚ) :
    ∀ (pairs : List (ℕ × ℚ)),
    (∀ p ∈ pairs, p.1 < ls.length ∧ p.1 < gl.length ∧ p.1 < gs.length) →
    (∃ p ∈ pairs,
      p.2 < ls.getD p.1 0 ∨ p.2 > ls.getD p.1 0 + gl.getD p.1 0 - gs.getD p.1 0) →
    gglCheck ls gl gs pairs = some true := by
  intro pairs
  induction pairs with
  | nil =>
      intro _ hex
      simp at hex
  | cons hd tl ih =>
      intro hbound hex
      obtain ⟨i, f⟩ := hd
      obtain ⟨hls, hgl, hgs⟩ := hbound (i, f) (by simp)
      rw [gglCheck]
      rw [List.get?_eq_getElem?, List.getElem?_eq_getElem hls]
      simp only
      by_cases h1 : f < ls.getD i 0
      · rw [if_pos (by rw [List.getD_eq_getElem _ _ hls] at h1; exact h1)]
      · rw [if_neg (by rw [List.getD_eq_getElem _ _ hls] at h1; exact h1)]
        rw [List.get?_eq_getElem?, List.getElem?_eq_getElem hgl,
          List.get?_eq_getElem?, List.getElem?_eq_getElem hgs]
        simp only
        by_cases h2 : f > ls.getD i 0 + gl.getD i 0 - gs.getD i 0
        · rw [if_pos (by
            rw [List.getD_eq_getElem _ _ hls, List.getD_eq_getElem _ _ hgl,
              List.getD_eq_getElem _ _ hgs] at h2
            exact h2)]
        · rw [if_neg (by
            rw [List.getD_eq_getElem _ _ hls, List.getD_eq_getElem _ _ hgl,
              List.getD_eq_getElem _ _ hgs] at h2
            exact h2)]
          apply ih (fun p hp => hbound p (by simp [hp]))
          rcases hex with ⟨p, hp, hout⟩
          rcases List.mem_cons.mp hp with rfl | hp'
          · exact absurd hout (by push_neg; exact ⟨le_of_not_lt h1, le_of_not_lt h2⟩)
          · exact ⟨p, hp', hout⟩

/-- Counterexample to C9 as stated: `update_grid` on an archive member with
a longer fitness than the candidate computes the sentinel location −1 for
that member and then increments the occupancy count of the LAST grid cell
(Python index −1) on its behalf, so a real cell's count is incremented for
a sentinel-located individual. -/
theorem update_grid_sentinel_increments_cell_counterexample :
    updateGrid ⟨0, [0], 0⟩ [⟨1, [0, 100], 0⟩] 1 ⟨[0, 5], [0, 6], [0, 0, 0, 0]⟩
      = some (⟨0, [0], 0⟩, [⟨1, [0, 100], -1⟩], ⟨[0, 5], [0, 6], [1, 0, 0, 1]⟩)
    ∧ ([1, 0, 0, 1] : List ℕ).getD 3 0 ≠ 0 := by
  refine ⟨?_, by decide⟩
  norm_num [updateGrid, assignLocs, getGridLocation, gglCheck, gglRound,
    List.enum, List.enumFrom, List.range_succ, List.mapM, List.mapM.loop,
    Option.bind, List.foldl, pyIncr, List.min?, List.max?, abs,
    List.replicate, Int.toNat, List.set]

/-- C9 (amended): `get_grid_location` returns the sentinel −1 whenever any
fitness component falls outside the padded bounds; but `update_grid` does
not treat the sentinel as "cannot be placed in any finite cell" — its
unconditional `grid_population[loc] += 1` at location −1 increments the
last occupancy cell (Python negative indexing). -/
theorem grid_location_sentinel (fitness gs gl : List ℚ) (d : ℕ)
    (hls : fitness.length ≤ gs.length) (hgl : fitness.length ≤ gl.length)
    (i : ℕ) (hi : i < fitness.length)
    (hout : fitness.getD i 0 < gs.getD i 0
      ∨ fitness.getD i 0 > gs.getD i 0 + gl.getD i 0 - gs.getD i 0) :
    getGridLocation fitness d gs gl = some (-1)
    ∧ (∀ gp : List ℕ, gp ≠ [] →
        pyIncr gp (-1)
          = some (gp.set (gp.length - 1) (gp.getD (gp.length - 1) 0 + 1))) := by
  constructor
  · have hcheck : gglCheck gs gl gs fitness.enum = some true := by
      apply gglCheck_some_true
      · intro p hp
        have hplen : p.1 < fitness.length := by
          have hget := List.mem_enum_iff_get?.mp hp
          rcases List.get?_eq_some.mp hget with ⟨h, -⟩
          exact h
        exact ⟨by omega, by omega, by omega⟩
      · refine ⟨(i, fitness.getD i 0), ?_, hout⟩
        apply List.mem_enum_iff_get?.mpr
        simp only
        rw [List.get?_eq_getElem?, List.getElem?_eq_getElem hi,
          List.getD_eq_getElem _ _ hi]
    unfold getGridLocation
    rw [hcheck]
    rfl
  · intro gp hgp
    have hlen : 1 ≤ gp.length := by
      cases gp with
      | nil => exact absurd rfl hgp
      | cons a l => simp
    have hidx : ((gp.length : ℤ) + (-1)).toNat = gp.length - 1 := by omega
    simp only [pyIncr]
    rw [if_pos (by norm_num : (-1 : ℤ) < 0)]
    rw [if_pos (⟨by omega, by omega⟩ :
      0 ≤ (gp.length : ℤ) + (-1) ∧ (gp.length : ℤ) + (-1) < (gp.length : ℤ))]
    rw [hidx]

/-- Witness for C9 (amended) at a concrete out-of-bounds fitness. -/
theorem grid_location_sentinel_witness :
    getGridLocation [100] 1 [5] [6] = some (-1)
    ∧ pyIncr [0, 0] (-1) = some ([0, 0].set 1 ([0, 0].getD 1 0 + 1)) := by
  have h := grid_location_sentinel [100] [5] [6] 1 (by decide) (by decide)
    0 (by decide) (by norm_num)
  exact ⟨h.1, h.2 [0, 0] (by decide)⟩

end Inspyred
